import Mathlib

/-!
Verification of the streaming-protocol parsing and graph-to-Mermaid conversion
core of the WeMermaid repository.

Strings are modelled as lists of characters (a JavaScript string index becomes
a list index).  JavaScript numbers that act as counters are modelled as Nat,
except the brace counter of the chunk scanner, which is modelled as Int because
the source decrements it unconditionally.  JSON.parse is an external browser
builtin, so the decoding of one message span into a record of fields is taken
as a parameter of the stream-processing functions; concrete instantiations
(agreeing with JSON.parse on the concrete spans used) are supplied for the
closed evaluations.
-/

namespace WeMermaid

/-- Model of the JavaScript String.indexOf character search: first index of
the character in the list, offset by a running index. -/

def indexOfAux (c : Char) : List Char → Nat → Option Nat
  | [], _ => none
  | a :: rest, i => if a = c then some i else indexOfAux c rest (i + 1)

/-- Model of JavaScript str.indexOf(c, start): least index at or after
start whose character is c.  Searching the dropped prefix and shifting
back realizes exactly that semantics. -/

def indexOfFrom (s : List Char) (c : Char) (start : Nat) : Option Nat :=
  (indexOfAux c (s.drop start) 0).map (· + start)

/-- Brace-depth scanner of findJsonObjectEnd (src/lib/ai-service.js,
lines 273-302): walks the characters after the opening brace carrying the
current index, the brace count, the in-string flag and the escaping flag.
The source checks the escaping flag first, so in the branch testing for a
double quote the escaping flag is always false and the source's redundant
conjunct is dropped. -/

def scanBrace : List Char → Nat → Int → Bool → Bool → Option Nat
  | [], _, _, _, _ => none
  | c :: rest, i, braceCount, inString, escaping =>
    if escaping = true then
      scanBrace rest (i + 1) braceCount inString false
    else if c = '\\' ∧ inString = true then
      scanBrace rest (i + 1) braceCount inString true
    else if c = '"' then
      scanBrace rest (i + 1) braceCount (!inString) false
    else if inString = false ∧ c = '{' then
      scanBrace rest (i + 1) (braceCount + 1) inString false
    else if inString = false ∧ c = '}' then
      if braceCount - 1 = 0 then some i
      else scanBrace rest (i + 1) (braceCount - 1) inString false
    else
      scanBrace rest (i + 1) braceCount inString false

/-- Embedding of findJsonObjectEnd (src/lib/ai-service.js, lines 261-306).
The JavaScript -1 result is modelled as none. -/

def findJsonObjectEnd (str : List Char) (startPos : Nat) : Option Nat :=
  if startPos ≥ str.length then none
  else
    match indexOfFrom str '{' startPos with
    | none => none
    | some pos => scanBrace (str.drop (pos + 1)) (pos + 1) 1 false false

/-- Fuelled message-extraction loop of the JSON-mode stream reader
(src/lib/ai-service.js, lines 71-105): repeatedly take the span up to and
including the end of the next complete JSON object, and keep the unconsumed
tail.  The source advances startPos inside a fixed buffer and finally retains
buffer.substring(startPos); dropping the consumed prefix after each message is
the same thing (see findJsonObjectEnd_shift below).  The fuel only serves
structural recursion; the buffer length is always a sufficient amount. -/

def extractAllF : Nat → List Char → List (List Char) × List Char
  | 0, b => ([], b)
  | fuel + 1, b =>
    match findJsonObjectEnd b 0 with
    | none => ([], b)
    | some e =>
      let r := extractAllF fuel (b.drop (e + 1))
      (b.take (e + 1) :: r.1, r.2)

/-- Extraction of all complete messages currently in the buffer. -/

def extractAll (b : List Char) : List (List Char) × List Char :=
  extractAllF b.length b

/-! Embedding of the JSON-mode streaming loop of generateMermaidFromText
(src/lib/ai-service.js, lines 59-108). -/

/-- Result of JSON.parse on one message span, restricted to the fields the
loop inspects.  A field that is absent (or whose value is not a string) is
none; the done flag models JavaScript truthiness of data.done. -/

structure JsonVal where
  error : Option String := none
  chunk : Option String := none
  done : Bool := false
  mermaidCode : Option String := none

/-- JavaScript truthiness of an optional string field: present and
non-empty. -/

def truthyS : Option String → Bool
  | none => false
  | some s => !(s == "")

/-- Processing of one extracted message span (src/lib/ai-service.js,
lines 76-101).  A parse failure is swallowed by the inner catch and the
message is skipped.  The throw on a truthy data.error (line 81) is likewise
caught by the same inner catch (line 97), so it only skips the message:
the surrounding loop continues.  The state is the pair of the list of
onChunk payloads emitted so far and fullMermaidCode. -/

def handleGenMsg (parse : List Char → Option JsonVal) (st : List String × String)
    (msg : List Char) : List String × String :=
  match parse msg with
  | none => st
  | some d =>
    if truthyS d.error = true then st
    else
      let st1 := if truthyS d.chunk = true ∧ d.done = false
        then (st.1 ++ [d.chunk.getD ""], st.2) else st
      if d.done = true ∧ truthyS d.mermaidCode = true
        then (st1.1, d.mermaidCode.getD "") else st1

/-- The chunk loop (src/lib/ai-service.js, lines 64-106): append the incoming
chunk to the buffer, extract and process every complete message, and retain
the unconsumed tail for the next chunk. -/

def runGenLoop (parse : List Char → Option JsonVal) :
    List (List Char) → List Char → List String × String → List String × String
  | [], _, st => st
  | c :: cs, buffer, st =>
    let r := extractAll (buffer ++ c)
    runGenLoop parse cs r.2 (r.1.foldl (handleGenMsg parse) st)

/-- Resolution value of the streaming path of generateMermaidFromText:
the ordered onChunk payloads, and the returned record
with mermaidCode := fullMermaidCode and error := null (line 108). -/

def generateMermaidStreamResult (parse : List Char → Option JsonVal)
    (chunks : List (List Char)) : List String × String × Option String :=
  let st := runGenLoop parse chunks [] ([], "")
  (st.1, st.2, none)

/-- Sink payloads produced by a message list: one entry per message that
parses, carries no truthy error, and is a chunk message with done falsy. -/

def genDeltas (parse : List Char → Option JsonVal) (msgs : List (List Char)) : List String :=
  msgs.filterMap fun m =>
    match parse m with
    | none => none
    | some d =>
      if truthyS d.error = true then none
      else if truthyS d.chunk = true ∧ d.done = false then some (d.chunk.getD "")
      else none

/-- Accumulated final content after a message list: every parsed, error-free
message with done truthy and a truthy mermaidCode overwrites it (last one
wins). -/

def genFinalFrom (parse : List Char → Option JsonVal) (acc : String)
    (msgs : List (List Char)) : String :=
  msgs.foldl (fun acc m =>
    match parse m with
    | none => acc
    | some d =>
      if truthyS d.error = true then acc
      else if d.done = true ∧ truthyS d.mermaidCode = true then d.mermaidCode.getD ""
      else acc) acc

/-! Embedding of the SSE-mode streaming loop of optimizeMermaidCode
(src/lib/ai-service.js, lines 152-181). -/

/-- Whitespace as recognized by JavaScript String.prototype.trim and the
regexp class backslash-s, restricted to the ASCII range (the source never
meets the Unicode space characters). -/

def isJsSpace (c : Char) : Bool :=
  c == ' ' || c == '\t' || c == '\n' || c == '\r' || c == '\x0b' || c == '\x0c'

/-- Model of JavaScript String.prototype.trim. -/

def jsTrim (s : List Char) : List Char :=
  ((s.dropWhile isJsSpace).reverse.dropWhile isJsSpace).reverse

/-- Model of JavaScript str.split with the two-newline separator, as used at
line 160: non-overlapping leftmost splitting; the accumulator carries the
current piece reversed. -/

def splitNN (acc : List Char) : List Char → List (List Char)
  | '\n' :: '\n' :: rest => acc.reverse :: splitNN [] rest
  | c :: rest => splitNN (c :: acc) rest
  | [] => [acc.reverse]

/-- Event texts scanned out of one network chunk (line 160):
chunk.split on blank lines, empty pieces removed by filter(Boolean). -/

def sseEventsOf (chunk : List Char) : List (List Char) :=
  (splitNN [] chunk).filter (fun e => !e.isEmpty)

/-- Result of JSON.parse on one SSE payload, restricted to the inspected
fields; ok models JavaScript truthiness of payload.ok. -/

structure SsePayload where
  type : Option String := none
  data : Option String := none
  ok : Bool := false
  message : Option String := none

/-- Processing of one split-off event text (src/lib/ai-service.js,
lines 161-178).  The state is the pair of onChunk payloads emitted so far and
mermaidFull.  A payload of type error makes the source throw (line 173), but
the throw is caught by the per-event catch (line 175-177) whose body is
continue, so the event is merely skipped and processing goes on; the carried
message is discarded. -/

def handleSseEvent (parse : List Char → Option SsePayload) (st : List String × String)
    (evt : List Char) : List String × String :=
  let line := jsTrim evt
  if line.take 5 = "data:".toList then
    let payloadStr := jsTrim (line.drop 5)
    if payloadStr = [] then st
    else
      match parse payloadStr with
      | none => st
      | some p =>
        if p.type = some "chunk" ∧ truthyS p.data = true then (st.1 ++ [p.data.getD ""], st.2)
        else if p.type = some "final" ∧ p.ok = true then (st.1, p.data.getD "")
        else if p.type = some "error" then st
        else st
  else st

/-- Processing of one network chunk: the chunk is split and filtered on its
own, with no carry-over from any previous chunk, and each event is handled in
order. -/

def runOptChunk (parse : List Char → Option SsePayload) (st : List String × String)
    (chunk : List Char) : List String × String :=
  (sseEventsOf chunk).foldl (handleSseEvent parse) st

/-- The reader loop (lines 156-179): fold over the received chunks. -/

def optimizeStream (parse : List Char → Option SsePayload)
    (chunks : List (List Char)) : List String × String :=
  chunks.foldl (runOptChunk parse) ([], "")

/-- Resolution value of optimizeMermaidCode after the loop: the ordered
onChunk payloads and the returned record with optimizedCode := mermaidFull and
error := null (line 181). -/

def optimizeStreamResult (parse : List Char → Option SsePayload)
    (chunks : List (List Char)) : List String × String × Option String :=
  let st := optimizeStream parse chunks
  (st.1, st.2, none)

/-- Sink payload (zero or one) produced by a single event text. -/

def sseEvtDelta (parse : List Char → Option SsePayload) (evt : List Char) : List String :=
  let line := jsTrim evt
  if line.take 5 = "data:".toList then
    let payloadStr := jsTrim (line.drop 5)
    if payloadStr = [] then []
    else
      match parse payloadStr with
      | none => []
      | some p =>
        if p.type = some "chunk" ∧ truthyS p.data = true then [p.data.getD ""] else []
  else []

/-- Update of mermaidFull by a single event text. -/

def sseFinalStep (parse : List Char → Option SsePayload) (acc : String)
    (evt : List Char) : String :=
  let line := jsTrim evt
  if line.take 5 = "data:".toList then
    let payloadStr := jsTrim (line.drop 5)
    if payloadStr = [] then acc
    else
      match parse payloadStr with
      | none => acc
      | some p =>
        if p.type = some "chunk" ∧ truthyS p.data = true then acc
        else if p.type = some "final" ∧ p.ok = true then p.data.getD ""
        else acc
  else acc

/-- Sink payloads of a list of event texts. -/

def sseDeltas (parse : List Char → Option SsePayload) (evts : List (List Char)) : List String :=
  (evts.map (sseEvtDelta parse)).flatten

/-- Accumulated mermaidFull after a list of event texts (last final wins). -/

def sseFinalFrom (parse : List Char → Option SsePayload) (acc : String)
    (evts : List (List Char)) : String :=
  evts.foldl (sseFinalStep parse) acc

/-! Concrete decoder instantiations used by the closed evaluations.  Each one
agrees with JSON.parse on every span it is applied to: the listed well-formed
payloads parse to the listed field records, and every other applied span is
malformed JSON (a throw, hence none). -/

/-- Decoder instance for the SSE stream holding an error event followed by a
chunk event and a final event. -/
def parseSseErrCase (s : List Char) : Option SsePayload :=
  if s = "\x7b\"type\":\"error\",\"message\":\"boom\"\x7d".toList then
    some { type := some "error", message := some "boom" }
  else if s = "\x7b\"type\":\"chunk\",\"data\":\"x\"\x7d".toList then
    some { type := some "chunk", data := some "x" }
  else if s = "\x7b\"type\":\"final\",\"ok\":true,\"data\":\"F\"\x7d".toList then
    some { type := some "final", ok := true, data := some "F" }
  else none

/-- Decoder instance for the SSE stream whose single chunk event is cut in two
at a network chunk boundary; the cut fragment is malformed JSON. -/
def parseSseSplitCase (s : List Char) : Option SsePayload :=
  if s = "\x7b\"type\":\"chunk\",\"data\":\"hello\"\x7d".toList then
    some { type := some "chunk", data := some "hello" }
  else none

/-- Decoder instance for the JSON-mode stream holding a final message, then a
delta, then a second final. -/
def parseGenFinalCase (s : List Char) : Option JsonVal :=
  if s = "\x7b\"done\":true,\"mermaidCode\":\"A\"\x7d".toList then
    some { done := true, mermaidCode := some "A" }
  else if s = "\x7b\"chunk\":\"x\",\"done\":false\x7d".toList then
    some { chunk := some "x" }
  else if s = "\x7b\"done\":true,\"mermaidCode\":\"B\"\x7d".toList then
    some { done := true, mermaidCode := some "B" }
  else none

/-- Decoder instance for the JSON-mode stream holding a delta message followed
by a terminal error message. -/
def parseGenErrCase (s : List Char) : Option JsonVal :=
  if s = "\x7b\"chunk\":\"a\",\"done\":false\x7d".toList then
    some { chunk := some "a" }
  else if s = "\x7b\"error\":\"x\"\x7d".toList then
    some { error := some "x" }
  else none

/-- Outcome of the precondition checks at the top of generateMermaidFromText
(src/lib/ai-service.js, lines 11-23): either an early resolution, reached
before the fetch call and before any use of the sink callback, or the cleaned
text with which the function proceeds to the network exchange. -/
inductive GenOutcome where
  | earlyError (mermaidCode : String) (error : String)
  | fetch (cleanedText : String)
deriving DecidableEq

/-- Embedding of the precondition checks.  The cleanText helper lives in
src/lib/utils, which only the import is visible from, so it is a parameter;
the length check inspects only its result.  maxChars models parseInt of the
NEXT_PUBLIC_MAX_CHARS environment variable (default 20000) and maxCharsStr
the raw variable text interpolated into the error message (default "20000").
Lengths count characters, which agrees with the JavaScript length for the
basic-plane text involved. -/
def generateMermaidPrecheck (cleanTextF : String → String) (maxChars : Nat)
    (maxCharsStr : String) (text : String) : GenOutcome :=
  if text = "" then .earlyError "" "请提供文本内容"
  else
    let cleanedText := cleanTextF text
    if cleanedText.length > maxChars then
      .earlyError "" ("文本超过" ++ maxCharsStr ++ "字符限制")
    else .fetch cleanedText

/-! Model of the fenced-code-block post-processing of the generation route
handler (src/unnamed/part_000, lines 147-149): the accumulated text is matched
against the JavaScript regexp consisting of a triple backtick, an optional
literal mermaid tag, a greedy whitespace run, a lazy any-character group, and
a closing triple backtick; group 1 trimmed is returned on a match, the raw
text otherwise. -/

/-- First index at which the triple-backtick delimiter occurs. -/
def findTriple : List Char → Nat → Option Nat
  | [], _ => none
  | c :: t, i =>
    if (c :: t).take 3 = "```".toList then some i else findTriple t (i + 1)

/-- Whether the text contains the triple-backtick delimiter at all. -/
def hasTriple (s : List Char) : Bool := (findTriple s 0).isSome

/-- Length of the leading whitespace run. -/
def wsRunLen (r : List Char) : Nat := (r.takeWhile isJsSpace).length

/-- Tail match after the opening delimiter and the optional tag: the greedy
whitespace star first takes the whole leading run, then the lazy group extends
minimally up to the next closing delimiter.  A backtick is not whitespace, so
no closing delimiter can start strictly inside the whitespace run and the
greedy star never has to backtrack. -/
def fenceTail (r : List Char) : Option (List Char) :=
  let w := wsRunLen r
  match findTriple (r.drop w) 0 with
  | none => none
  | some p => some ((r.drop w).take p)

/-- Match of the regexp at one fixed start position.  The optional mermaid
group is greedy: it is consumed when present, and dropped again only if the
rest of the pattern then fails. -/
def matchFenceAt (s : List Char) : Option (List Char) :=
  if s.take 3 = "```".toList then
    let rest := s.drop 3
    if rest.take 7 = "mermaid".toList then
      match fenceTail (rest.drop 7) with
      | some g => some g
      | none => fenceTail rest
    else fenceTail rest
  else none

/-- Leftmost match of the regexp over the whole text. -/
def fenceFirstMatch : List Char → Option (List Char)
  | [] => none
  | s@(_ :: t) =>
    match matchFenceAt s with
    | some g => some g
    | none => fenceFirstMatch t

/-- The post-processing itself: codeBlockMatch ? codeBlockMatch[1].trim()
: mermaidCode. -/
def extractCodeBlock (s : List Char) : List Char :=
  match fenceFirstMatch s with
  | some g => jsTrim g
  | none => s

/-! Specification-side grammar for the chunk-scanner claim, written from the
spec's words: a balanced JSON object is an opening brace, interior content and
the matching closing brace; interior content is a sequence of items, each one
a plain character (neither brace nor quote), a complete string literal whose
body may hold arbitrary characters behind backslash escapes (so braces and
escaped quotes inside strings are covered), or a nested balanced object. -/

/-- Body of a string literal: plain characters (not a quote, not a backslash)
and backslash escapes of arbitrary characters. -/
inductive StrBody : List Char → Prop where
  | nil : StrBody []
  | plain {c : Char} {t : List Char} :
      c ≠ '"' → c ≠ '\\' → StrBody t → StrBody (c :: t)
  | esc {c : Char} {t : List Char} : StrBody t → StrBody ('\\' :: c :: t)

/-- A complete string literal: quote, body, closing quote. -/
def JStr (s : List Char) : Prop := ∃ b, StrBody b ∧ s = '"' :: b ++ ['"']

/-- Interior content of a balanced object at one nesting depth. -/
inductive Items : List Char → Prop where
  | nil : Items []
  | plain {c : Char} {t : List Char} :
      c ≠ '{' → c ≠ '}' → c ≠ '"' → Items t → Items (c :: t)
  | str {s t : List Char} : JStr s → Items t → Items (s ++ t)
  | obj {s t : List Char} : Items s → Items t → Items (('{' :: s ++ ['}']) ++ t)

/-- A balanced JSON object: brace-balanced with string literals respected. -/
def Balanced (s : List Char) : Prop := ∃ inner, Items inner ∧ s = '{' :: inner ++ ['}']

/-- Interior content that closes d-1 pending objects before a final closing
brace: the shape of a region successfully scanned from depth d down to the
match.  Used to invert a successful scan. -/
inductive PreClose : Int → List Char → Prop where
  | one {u : List Char} : Items u → PreClose 1 u
  | step {d : Int} {u v : List Char} :
      Items u → PreClose d v → PreClose (d + 1) (u ++ '}' :: v)

/-! Embedding of the graph-to-Mermaid flowchart converter
excalidrawToMermaidFlowChart (src/unnamed/part_001, lines 44-139).  The sister
implementation excalidrawToMermaid in src/components/excalidraw-renderer.jsx
(lines 42-145) has the same getAlphaId and getColorClass logic and the same
flowchart node pass.  The local cleanText helper (part_001, line 58) only
shapes label text, which no verified property inspects, so it is a parameter
cleanT. -/

/-- Bound-element reference: one entry of el.boundElements. -/
structure BoundEl where
  type : String
  id : String

/-- Visual element, restricted to the fields the converter reads.  A missing
or falsy color is modelled by the empty string (the source replaces it by the
default right away). -/
structure Element where
  type : String
  id : String
  text : String := ""
  boundElements : List BoundEl := []
  backgroundColor : String := ""
  strokeColor : String := ""
  groupIds : List String := []
  startBinding : Option String := none
  endBinding : Option String := none

/-- Read from an insertion-ordered association list (JavaScript object or Map
read). -/
def lookupA (m : List (String × String)) (k : String) : Option String :=
  (m.find? (fun e => e.1 == k)).map (fun e => e.2)

/-- Write to an insertion-ordered association list (JavaScript object write):
overwrite in place, append at the end when the key is new. -/
def setA : List (String × String) → String → String → List (String × String)
  | [], k, v => [(k, v)]
  | (k', v') :: rest, k, v =>
    if k' = k then (k', v) :: rest else (k', v') :: setA rest k v

/-- Embedding of getAlphaId (part_001, lines 53-56): the letter at the
pre-increment counter, or, past the alphabet, the overflow id built from the
already incremented counter. -/
def getAlphaIdAt (idCounter : Nat) : String :=
  match "ABCDEFGHIJKLMNOPQRSTUVWXYZ".toList.get? idCounter with
  | some c => String.singleton c
  | none => "N" ++ Nat.repr (idCounter + 1)

/-- Embedding of getColorClass (part_001, lines 60-66): per joined
bg-stroke key, the memoized class name; a fresh name uses the incremented
counter and is appended to the map.  Returns the name, the updated map and
the updated counter. -/
def getColorClass (classDefs : List (String × String)) (colorCounter : Nat)
    (bg stroke : String) : String × List (String × String) × Nat :=
  let key := bg ++ "-" ++ stroke
  match lookupA classDefs key with
  | some n => (n, classDefs, colorCounter)
  | none =>
    let name := "C" ++ Nat.repr (colorCounter + 1)
    (name, classDefs ++ [(key, name)], colorCounter + 1)

/-- Ghost record of one node-pass step, carrying what the id and style-class
properties talk about: the source element id, the assigned canonical id, the
effective fill and stroke after the falsy-defaults, and the class name baked
into the node string (none when colors are off). -/
structure NodeTrace where
  srcId : String
  alphaId : String
  fill : String
  stroke : String
  className : Option String
deriving DecidableEq

/-- State threaded through the conversion passes, plus the ghost trace. -/
structure FlowState where
  textMap : List (String × String) := []
  idMap : List (String × String) := []
  nodes : List (String × String) := []
  links : List String := []
  classDefs : List (String × String) := []
  groupMap : List (String × List (String × String)) := []
  idCounter : Nat := 0
  colorCounter : Nat := 0
  trace : List NodeTrace := []

/-- First pass (part_001, lines 69-71): collect the cleaned text of every text
element by element id. -/
def collectTexts (cleanT : String → String) (els : List Element)
    (st : FlowState) : FlowState :=
  els.foldl (fun st el =>
    if el.type = "text" then { st with textMap := setA st.textMap el.id (cleanT el.text) }
    else st) st

/-- Recognized shape kinds (part_001, line 78). -/
def isShape (el : Element) : Prop :=
  el.type = "rectangle" ∨ el.type = "ellipse" ∨ el.type = "diamond"

instance (el : Element) : Decidable (isShape el) := by
  unfold isShape
  infer_instance

/-- Id of the bound text element, when any. -/
def boundTextId (el : Element) : Option String :=
  (el.boundElements.find? (fun b => b.type == "text")).map (fun b => b.id)

/-- Resolved label: textMap[textId] with JavaScript || fallback to "". -/
def lookupText (textMap : List (String × String)) (tid : Option String) : String :=
  match tid with
  | none => ""
  | some t => (lookupA textMap t).getD ""

/-- Shape brackets around the label (part_001, lines 85-87). -/
def shapeBrackets (elType text : String) : String :=
  if elType = "ellipse" then "((" ++ text ++ "))"
  else if elType = "diamond" then "\x7b" ++ text ++ "\x7d"
  else "[" ++ text ++ "]"

/-- One push into groupMap (part_001, lines 94-99). -/
def pushGroup (m : List (String × List (String × String))) (gid : String)
    (entry : String × String) : List (String × List (String × String)) :=
  match m with
  | [] => [(gid, [entry])]
  | (g, l) :: rest =>
    if g = gid then (g, l ++ [entry]) :: rest else (g, l) :: pushGroup rest gid entry

/-- Group membership recording of one node. -/
def pushGroups (m : List (String × List (String × String))) (gids : List String)
    (alphaId : String) : List (String × List (String × String)) :=
  gids.foldl (fun m gid => pushGroup m gid (alphaId, gid)) m

/-- Second pass, one element (part_001, lines 77-101): for a recognized
shape, resolve the bound label, assign the next canonical id, render the node
string (with the style class when colors are on) and record group
memberships. -/
def nodeStep (includeColors : Bool) (st : FlowState) (el : Element) : FlowState :=
  if isShape el then
    let text := lookupText st.textMap (boundTextId el)
    let alphaId := getAlphaIdAt st.idCounter
    let fill := if el.backgroundColor = "" then "white" else el.backgroundColor
    let stroke := if el.strokeColor = "" then "#1e1e1e" else el.strokeColor
    if includeColors then
      let r := getColorClass st.classDefs st.colorCounter fill stroke
      { st with
        idMap := setA st.idMap el.id alphaId,
        nodes := setA st.nodes alphaId (shapeBrackets el.type text ++ ":::" ++ r.1),
        classDefs := r.2.1,
        colorCounter := r.2.2,
        idCounter := st.idCounter + 1,
        groupMap := pushGroups st.groupMap el.groupIds alphaId,
        trace := st.trace ++
          [{ srcId := el.id, alphaId := alphaId, fill := fill, stroke := stroke,
             className := some r.1 }] }
    else
      { st with
        idMap := setA st.idMap el.id alphaId,
        nodes := setA st.nodes alphaId (shapeBrackets el.type text),
        idCounter := st.idCounter + 1,
        groupMap := pushGroups st.groupMap el.groupIds alphaId,
        trace := st.trace ++
          [{ srcId := el.id, alphaId := alphaId, fill := fill, stroke := stroke,
             className := none }] }
  else st

/-- Third pass, one element (part_001, lines 106-118): resolve arrow
endpoints through idMap, drop the edge when either end is unresolved, and
push the rendered link line.  Canonical ids are never empty, so resolution
success coincides with JavaScript truthiness. -/
def arrowStep (st : FlowState) (el : Element) : FlowState :=
  if el.type = "arrow" then
    let start := el.startBinding.bind (fun sid => lookupA st.idMap sid)
    let stop := el.endBinding.bind (fun eid => lookupA st.idMap eid)
    match start, stop with
    | some s, some e =>
      let label := lookupText st.textMap (boundTextId el)
      let linkLabel := if label = "" then "" else "|" ++ label ++ "|"
      { st with links := st.links ++ [s ++ " -->" ++ linkLabel ++ " " ++ e] }
    | _, _ => st
  else st

/-- Splitting on the dash character, modelling key.split("-") at
part_001, line 131. -/
def splitOnDash (acc : List Char) : List Char → List (List Char)
  | [] => [acc.reverse]
  | c :: rest =>
    if c = '-' then acc.reverse :: splitOnDash [] rest
    else splitOnDash (c :: acc) rest

/-- Rendering of one classDef line (part_001, lines 130-133): the
destructuring takes the first two split parts; a missing part renders as the
text undefined, as the JavaScript template would. -/
def classDefLine (kv : String × String) : String :=
  let parts := (splitOnDash [] kv.1.toList).map (fun l => String.mk l)
  let bg := (parts.get? 0).getD "undefined"
  let stroke := (parts.get? 1).getD "undefined"
  "    classDef " ++ kv.2 ++ " fill:" ++ bg ++ ",stroke:" ++ stroke ++ ",stroke-width:2px;"

/-- Full embedding of excalidrawToMermaidFlowChart: the three passes and the
output assembly, returning the code text and the group list. -/
def excalidrawToMermaidFlowChart (cleanT : String → String) (direction : String)
    (includeColors : Bool) (els : List Element) :
    String × List (List (String × String)) :=
  let st1 := collectTexts cleanT els {}
  let st2 := els.foldl (nodeStep includeColors) st1
  let st3 := els.foldl arrowStep st2
  let lines1 := ("flowchart " ++ direction) ::
    (st3.nodes.map (fun kv => "    " ++ kv.1 ++ kv.2)
      ++ st3.links.map (fun l => "    " ++ l))
  let lines2 :=
    if includeColors ∧ st3.classDefs.length ≠ 0 then
      lines1 ++ [""] ++ st3.classDefs.map classDefLine
    else lines1
  (String.intercalate "\n" lines2, st3.groupMap.map (fun g => g.2))

/-- The ghost trace of a conversion call: one record per recognized shape
element, in encounter order. -/
def nodeTraceOf (cleanT : String → String) (includeColors : Bool)
    (els : List Element) : List NodeTrace :=
  (els.foldl (nodeStep includeColors) (collectTexts cleanT els {})).trace

/-- Invariant of the class-definition map: the stored names are C1..Cn in
insertion order, with n the counter. -/
def cdInv (cd : List (String × String)) (n : Nat) : Prop :=
  cd.map Prod.snd = (List.range n).map (fun k => "C" ++ Nat.repr (k + 1))

/-- Concrete input of the style-class counterexample: two rectangles whose
distinct color pairs share the joined key "a-b-c". -/
def elRectA : Element :=
  { type := "rectangle"
    id := "r1"
    backgroundColor := "a-b"
    strokeColor := "c" }

/-- Second rectangle of the counterexample. -/
def elRectB : Element :=
  { type := "rectangle"
    id := "r2"
    backgroundColor := "a"
    strokeColor := "b-c" }

/-- Joined color key of a trace entry, as getColorClass builds it. -/
def keyOf (e : NodeTrace) : String := e.fill ++ "-" ++ e.stroke

/-- Invariant carried through the node pass with colors on: the class map
stores the names C1..Cn in insertion order, and every trace entry's name is
what the class map answers for its key. -/
def flowInv (st : FlowState) : Prop :=
  cdInv st.classDefs st.colorCounter ∧
  ∀ e ∈ st.trace, ∃ nm, e.className = some nm ∧ lookupA st.classDefs (keyOf e) = some nm

/-- Red rectangle used by the style-class witness. -/
def elRectC : Element :=
  { type := "rectangle"
    id := "r3"
    backgroundColor := "red"
    strokeColor := "black" }

/-- Blue rectangle used by the style-class witness. -/
def elRectD : Element :=
  { type := "rectangle"
    id := "r4"
    backgroundColor := "blue"
    strokeColor := "black" }

/-! Theorems. -/

theorem scanBrace_esc (c : Char) (rest : List Char) (i : Nat) (d : Int) (b : Bool) :
    scanBrace (c :: rest) i d b true = scanBrace rest (i + 1) d b false := by
  simp [scanBrace]

theorem scanBrace_backslash (rest : List Char) (i : Nat) (d : Int) :
    scanBrace ('\\' :: rest) i d true false = scanBrace rest (i + 1) d true true := by
  simp [scanBrace]

theorem scanBrace_quote (rest : List Char) (i : Nat) (d : Int) (b : Bool) :
    scanBrace ('"' :: rest) i d b false = scanBrace rest (i + 1) d (!b) false := by
  simp [scanBrace]

theorem scanBrace_open (rest : List Char) (i : Nat) (d : Int) :
    scanBrace ('{' :: rest) i d false false = scanBrace rest (i + 1) (d + 1) false false := by
  simp [scanBrace]

theorem scanBrace_close (rest : List Char) (i : Nat) (d : Int) :
    scanBrace ('}' :: rest) i d false false =
      if d - 1 = 0 then some i else scanBrace rest (i + 1) (d - 1) false false := by
  simp [scanBrace]

theorem scanBrace_inStr (c : Char) (rest : List Char) (i : Nat) (d : Int)
    (h1 : c ≠ '"') (h2 : c ≠ '\\') :
    scanBrace (c :: rest) i d true false = scanBrace rest (i + 1) d true false := by
  simp [scanBrace, h1, h2]

theorem scanBrace_other (c : Char) (rest : List Char) (i : Nat) (d : Int)
    (h1 : c ≠ '"') (h2 : c ≠ '{') (h3 : c ≠ '}') :
    scanBrace (c :: rest) i d false false = scanBrace rest (i + 1) d false false := by
  simp [scanBrace, h1, h2, h3]

/-- The scan index only offsets the returned position. -/
theorem scanBrace_shift : ∀ (s : List Char) (i k : Nat) (d : Int) (b e : Bool),
    scanBrace s (i + k) d b e = (scanBrace s i d b e).map (· + k) := by
  intro s
  induction s with
  | nil => intro i k d b e; rfl
  | cons c rest ih =>
    intro i k d b e
    have harith : i + k + 1 = i + 1 + k := by omega
    cases e with
    | true =>
      rw [scanBrace_esc, scanBrace_esc, harith, ih]
    | false =>
      cases b with
      | true =>
        by_cases hc : c = '\\'
        · subst hc
          rw [scanBrace_backslash, scanBrace_backslash, harith, ih]
        · by_cases hq : c = '"'
          · subst hq
            rw [scanBrace_quote, scanBrace_quote, harith, ih]
          · rw [scanBrace_inStr c _ _ _ hq hc, scanBrace_inStr c _ _ _ hq hc, harith, ih]
      | false =>
        by_cases hq : c = '"'
        · subst hq
          rw [scanBrace_quote, scanBrace_quote, harith, ih]
        · by_cases ho : c = '{'
          · subst ho
            rw [scanBrace_open, scanBrace_open, harith, ih]
          · by_cases hcl : c = '}'
            · subst hcl
              rw [scanBrace_close, scanBrace_close]
              by_cases hd : d - 1 = 0
              · rw [if_pos hd, if_pos hd]
                rfl
              · rw [if_neg hd, if_neg hd, harith, ih]
            · rw [scanBrace_other c _ _ _ hq ho hcl, scanBrace_other c _ _ _ hq ho hcl,
                harith, ih]

/-- Scanning from an offset into a buffer is scanning the dropped buffer from
offset zero, shifted back: this justifies modelling the source's advancing
startPos by dropping the consumed prefix. -/
theorem findJsonObjectEnd_shift (str : List Char) (p : Nat) :
    findJsonObjectEnd str p = (findJsonObjectEnd (str.drop p) 0).map (· + p) := by
  unfold findJsonObjectEnd
  by_cases hg : p ≥ str.length
  · rw [if_pos hg]
    rw [if_pos (by rw [List.length_drop]; omega : 0 ≥ (str.drop p).length)]
    rfl
  · rw [if_neg hg]
    rw [if_neg (by rw [List.length_drop]; omega : ¬ 0 ≥ (str.drop p).length)]
    unfold indexOfFrom
    rw [List.drop_zero]
    cases haux : indexOfAux '{' (str.drop p) 0 with
    | none => rfl
    | some q =>
      simp only [Option.map_some']
      show scanBrace (str.drop (q + p + 1)) (q + p + 1) 1 false false =
        ((scanBrace ((str.drop p).drop (q + 1)) (q + 1) 1 false false).map (· + p))
      rw [List.drop_drop]
      rw [show p + (q + 1) = q + p + 1 from by omega]
      rw [show q + p + 1 = (q + 1) + p from by omega, scanBrace_shift]

/-- Sanity evaluation: a string field whose value contains an escaped quote and
a closing brace (the buffer is the thirteen characters of
\x7b"a":"\"\x7d\""\x7d) is scanned to its true closing brace at offset 12, not
to the brace inside the string. -/
theorem findJsonObjectEnd_escaped_brace_example :
    findJsonObjectEnd "\x7b\"a\":\"\\\"\x7d\\\"\"\x7d".toList 0 = some 12 := by
  decide

/-- A successful scan of a buffer succeeds identically on any extension of the
buffer: the scan result only depends on the characters up to the match. -/
theorem scanBrace_append : ∀ (s t : List Char) (i : Nat) (d : Int) (b e : Bool) (j : Nat),
    scanBrace s i d b e = some j → scanBrace (s ++ t) i d b e = some j := by
  intro s
  induction s with
  | nil => intro t i d b e j h; simp [scanBrace] at h
  | cons c rest ih =>
    intro t i d b e j h
    rw [List.cons_append]
    cases e with
    | true =>
      rw [scanBrace_esc] at h ⊢
      exact ih t _ _ _ _ _ h
    | false =>
      cases b with
      | true =>
        by_cases hc : c = '\\'
        · subst hc
          rw [scanBrace_backslash] at h ⊢
          exact ih t _ _ _ _ _ h
        · by_cases hq : c = '"'
          · subst hq
            rw [scanBrace_quote] at h ⊢
            exact ih t _ _ _ _ _ h
          · rw [scanBrace_inStr c _ _ _ hq hc] at h ⊢
            exact ih t _ _ _ _ _ h
      | false =>
        by_cases hq : c = '"'
        · subst hq
          rw [scanBrace_quote] at h ⊢
          exact ih t _ _ _ _ _ h
        · by_cases ho : c = '{'
          · subst ho
            rw [scanBrace_open] at h ⊢
            exact ih t _ _ _ _ _ h
          · by_cases hcl : c = '}'
            · subst hcl
              rw [scanBrace_close] at h ⊢
              by_cases hd : d - 1 = 0
              · rw [if_pos hd] at h ⊢; exact h
              · rw [if_neg hd] at h ⊢
                exact ih t _ _ _ _ _ h
            · rw [scanBrace_other c _ _ _ hq ho hcl] at h ⊢
              exact ih t _ _ _ _ _ h

/-- A successful scan returns an index within the scanned region. -/
theorem scanBrace_bounds : ∀ (s : List Char) (i : Nat) (d : Int) (b e : Bool) (j : Nat),
    scanBrace s i d b e = some j → i ≤ j ∧ j < i + s.length := by
  intro s
  induction s with
  | nil => intro i d b e j h; simp [scanBrace] at h
  | cons c rest ih =>
    intro i d b e j h
    have step : ∀ d' b' e', scanBrace rest (i + 1) d' b' e' = some j →
        i ≤ j ∧ j < i + (c :: rest).length := by
      intro d' b' e' h'
      have := ih (i + 1) d' b' e' j h'
      constructor
      · omega
      · simp only [List.length_cons]; omega
    cases e with
    | true =>
      rw [scanBrace_esc] at h
      exact step _ _ _ h
    | false =>
      cases b with
      | true =>
        by_cases hc : c = '\\'
        · subst hc; rw [scanBrace_backslash] at h; exact step _ _ _ h
        · by_cases hq : c = '"'
          · subst hq; rw [scanBrace_quote] at h; exact step _ _ _ h
          · rw [scanBrace_inStr c _ _ _ hq hc] at h; exact step _ _ _ h
      | false =>
        by_cases hq : c = '"'
        · subst hq; rw [scanBrace_quote] at h; exact step _ _ _ h
        · by_cases ho : c = '{'
          · subst ho; rw [scanBrace_open] at h; exact step _ _ _ h
          · by_cases hcl : c = '}'
            · subst hcl
              rw [scanBrace_close] at h
              by_cases hd : d - 1 = 0
              · rw [if_pos hd] at h
                cases h
                constructor
                · omega
                · simp only [List.length_cons]; omega
              · rw [if_neg hd] at h; exact step _ _ _ h
            · rw [scanBrace_other c _ _ _ hq ho hcl] at h; exact step _ _ _ h

theorem indexOfAux_append : ∀ (s t : List Char) (c : Char) (i j : Nat),
    indexOfAux c s i = some j → indexOfAux c (s ++ t) i = some j := by
  intro s
  induction s with
  | nil => intro t c i j h; simp [indexOfAux] at h
  | cons a rest ih =>
    intro t c i j h
    rw [List.cons_append]
    by_cases ha : a = c
    · simp [indexOfAux, ha] at h ⊢; exact h
    · simp only [indexOfAux, if_neg ha] at h ⊢
      exact ih t c _ j h

theorem indexOfAux_bounds : ∀ (s : List Char) (c : Char) (i j : Nat),
    indexOfAux c s i = some j → i ≤ j ∧ j < i + s.length := by
  intro s
  induction s with
  | nil => intro c i j h; simp [indexOfAux] at h
  | cons a rest ih =>
    intro c i j h
    by_cases ha : a = c
    · simp [indexOfAux, ha] at h
      simp only [List.length_cons]; omega
    · simp only [indexOfAux, if_neg ha] at h
      have := ih c _ j h
      simp only [List.length_cons]; omega

/-- When the list decomposes as a clean prefix followed by the character,
the search finds exactly the end of that prefix. -/
theorem indexOfAux_found (c : Char) : ∀ (pre suf : List Char) (i : Nat),
    (∀ x ∈ pre, x ≠ c) → indexOfAux c (pre ++ c :: suf) i = some (i + pre.length) := by
  intro pre
  induction pre with
  | nil => intro suf i _; simp [indexOfAux]
  | cons a rest ih =>
    intro suf i hfree
    have ha : a ≠ c := hfree a (by simp)
    have hrec := ih suf (i + 1) (fun x hx => hfree x (by simp [hx]))
    simp only [List.cons_append, indexOfAux, if_neg ha, List.append_eq]
    rw [hrec]
    congr 1
    simp only [List.length_cons]
    omega

/-- A successful search decomposes the list as a clean prefix followed by the
character. -/
theorem indexOfAux_inv (c : Char) : ∀ (s : List Char) (i j : Nat),
    indexOfAux c s i = some j →
    ∃ pre suf, s = pre ++ c :: suf ∧ j = i + pre.length ∧ ∀ x ∈ pre, x ≠ c := by
  intro s
  induction s with
  | nil => intro i j h; simp [indexOfAux] at h
  | cons a rest ih =>
    intro i j h
    by_cases ha : a = c
    · simp [indexOfAux, ha] at h
      exact ⟨[], rest, by simp [ha], by simp [h], by simp⟩
    · simp only [indexOfAux, if_neg ha] at h
      obtain ⟨pre, suf, hs, hj, hfree⟩ := ih _ j h
      refine ⟨a :: pre, suf, by simp [hs], ?_, ?_⟩
      · simp only [List.length_cons]; omega
      · intro x hx
        rcases List.mem_cons.mp hx with hx | hx
        · exact hx ▸ ha
        · exact hfree x hx

theorem findJsonObjectEnd_nil (p : Nat) : findJsonObjectEnd [] p = none := by
  simp [findJsonObjectEnd]

theorem findJsonObjectEnd_bound {b : List Char} {p e : Nat}
    (h : findJsonObjectEnd b p = some e) : e < b.length := by
  unfold findJsonObjectEnd at h
  by_cases hg : p ≥ b.length
  · simp [hg] at h
  · rw [if_neg hg] at h
    cases hidx : indexOfFrom b '{' p with
    | none => rw [hidx] at h; exact absurd h (by simp)
    | some pos =>
      rw [hidx] at h
      have hpos : pos < b.length := by
        unfold indexOfFrom at hidx
        cases haux : indexOfAux '{' (b.drop p) 0 with
        | none => rw [haux] at hidx; simp at hidx
        | some q =>
          rw [haux] at hidx
          simp only [Option.map_some'] at hidx
          injection hidx with hqp
          have := indexOfAux_bounds _ _ _ _ haux
          have hlen := List.length_drop p b
          omega
      have := scanBrace_bounds _ _ _ _ _ _ h
      have hlen : (b.drop (pos + 1)).length = b.length - (pos + 1) := List.length_drop _ _
      omega

theorem indexOfFrom_append {b : List Char} (t : List Char) {c : Char} {st pos : Nat}
    (hst : st ≤ b.length)
    (h : indexOfFrom b c st = some pos) : indexOfFrom (b ++ t) c st = some pos := by
  unfold indexOfFrom at h ⊢
  cases haux : indexOfAux c (b.drop st) 0 with
  | none => rw [haux] at h; simp at h
  | some q =>
    rw [haux] at h
    simp only [Option.map_some'] at h
    have hdrop : (b ++ t).drop st = b.drop st ++ t :=
      List.drop_append_of_le_length hst
    rw [hdrop, indexOfAux_append _ t c 0 q haux]
    simpa using h

theorem indexOfFrom_bounds {b : List Char} {c : Char} {st pos : Nat}
    (h : indexOfFrom b c st = some pos) : st ≤ pos ∧ pos < b.length := by
  unfold indexOfFrom at h
  cases haux : indexOfAux c (b.drop st) 0 with
  | none => rw [haux] at h; simp at h
  | some q =>
    rw [haux] at h
    simp only [Option.map_some'] at h
    injection h with hqp
    have := indexOfAux_bounds _ _ _ _ haux
    have hlen := List.length_drop st b
    omega

/-- A complete message found in a buffer is found at the same position in any
extension of the buffer. -/
theorem findJsonObjectEnd_append {b : List Char} (t : List Char) {e : Nat}
    (h : findJsonObjectEnd b 0 = some e) : findJsonObjectEnd (b ++ t) 0 = some e := by
  unfold findJsonObjectEnd at h ⊢
  by_cases hg : 0 ≥ b.length
  · simp [hg] at h
  · rw [if_neg hg] at h
    have hg2 : ¬ 0 ≥ (b ++ t).length := by
      simp only [List.length_append]; omega
    rw [if_neg hg2]
    cases hidx : indexOfFrom b '{' 0 with
    | none => rw [hidx] at h; exact absurd h (by simp)
    | some pos =>
      rw [hidx] at h
      rw [indexOfFrom_append t (by omega) hidx]
      have hq : pos < b.length := (indexOfFrom_bounds hidx).2
      have hdrop : (b ++ t).drop (pos + 1) = b.drop (pos + 1) ++ t :=
        List.drop_append_of_le_length (by omega)
      have h' : scanBrace (b.drop (pos + 1)) (pos + 1) 1 false false = some e := h
      show scanBrace ((b ++ t).drop (pos + 1)) (pos + 1) 1 false false = some e
      rw [hdrop]
      exact scanBrace_append _ t _ _ _ _ _ h'

theorem extractAllF_congr : ∀ (f1 f2 : Nat) (b : List Char),
    b.length ≤ f1 → b.length ≤ f2 → extractAllF f1 b = extractAllF f2 b := by
  intro f1
  induction f1 with
  | zero =>
    intro f2 b h1 _
    have hb : b = [] := List.length_eq_zero.mp (by omega)
    subst hb
    cases f2 with
    | zero => rfl
    | succ g => simp [extractAllF, findJsonObjectEnd_nil]
  | succ f ih =>
    intro f2 b h1 h2
    cases f2 with
    | zero =>
      have hb : b = [] := List.length_eq_zero.mp (by omega)
      subst hb
      simp [extractAllF, findJsonObjectEnd_nil]
    | succ g =>
      cases h : findJsonObjectEnd b 0 with
      | none => simp [extractAllF, h]
      | some e =>
        have he : e < b.length := findJsonObjectEnd_bound h
        have hlen : (b.drop (e + 1)).length = b.length - (e + 1) := List.length_drop _ _
        simp only [extractAllF, h]
        rw [ih g (b.drop (e + 1)) (by omega) (by omega)]

theorem extractAll_none {b : List Char} (h : findJsonObjectEnd b 0 = none) :
    extractAll b = ([], b) := by
  unfold extractAll
  cases hl : b.length with
  | zero => rfl
  | succ n => simp [extractAllF, h]

theorem extractAll_step {b : List Char} {e : Nat} (h : findJsonObjectEnd b 0 = some e) :
    extractAll b =
      (b.take (e + 1) :: (extractAll (b.drop (e + 1))).1, (extractAll (b.drop (e + 1))).2) := by
  unfold extractAll
  have he : e < b.length := findJsonObjectEnd_bound h
  cases hl : b.length with
  | zero => omega
  | succ n =>
    simp only [extractAllF, h]
    have hlen : (b.drop (e + 1)).length = b.length - (e + 1) := List.length_drop _ _
    rw [extractAllF_congr n (b.drop (e + 1)).length (b.drop (e + 1)) (by omega) (by omega)]

/-- The tail retained by the extraction loop never contains a complete
message. -/
theorem extractAll_leftover : ∀ (b : List Char), findJsonObjectEnd (extractAll b).2 0 = none := by
  intro b
  generalize hn : b.length = n
  induction n using Nat.strong_induction_on generalizing b with
  | _ n ih =>
    cases h : findJsonObjectEnd b 0 with
    | none => rw [extractAll_none h]; exact h
    | some e =>
      rw [extractAll_step h]
      have he : e < b.length := findJsonObjectEnd_bound h
      have hlen : (b.drop (e + 1)).length = b.length - (e + 1) := List.length_drop _ _
      exact ih (b.drop (e + 1)).length (by omega) _ rfl

/-- Composition law of extraction: extracting from an extended buffer first
yields everything extracted from the original buffer, then whatever the
retained tail plus the extension yields. -/
theorem extractAll_append : ∀ (b t : List Char),
    extractAll (b ++ t) =
      ((extractAll b).1 ++ (extractAll ((extractAll b).2 ++ t)).1,
       (extractAll ((extractAll b).2 ++ t)).2) := by
  intro b
  generalize hn : b.length = n
  induction n using Nat.strong_induction_on generalizing b with
  | _ n ih =>
    intro t
    cases h : findJsonObjectEnd b 0 with
    | none =>
      rw [extractAll_none h]
      simp
    | some e =>
      have he : e < b.length := findJsonObjectEnd_bound h
      have h2 : findJsonObjectEnd (b ++ t) 0 = some e := findJsonObjectEnd_append t h
      rw [extractAll_step h, extractAll_step h2]
      have htake : (b ++ t).take (e + 1) = b.take (e + 1) :=
        List.take_append_of_le_length (by omega)
      have hdrop : (b ++ t).drop (e + 1) = b.drop (e + 1) ++ t :=
        List.drop_append_of_le_length (by omega)
      have hlen : (b.drop (e + 1)).length = b.length - (e + 1) := List.length_drop _ _
      rw [htake, hdrop, ih (b.drop (e + 1)).length (by omega) _ rfl t]
      simp

/-- The chunk loop over any chunk list equals one fold over the messages
extracted from the concatenation of all chunks, provided the starting buffer
holds no complete message. -/
theorem runGenLoop_flatten (parse : List Char → Option JsonVal) :
    ∀ (cs : List (List Char)) (buffer : List Char) (st : List String × String),
    findJsonObjectEnd buffer 0 = none →
    runGenLoop parse cs buffer st =
      (extractAll (buffer ++ cs.flatten)).1.foldl (handleGenMsg parse) st := by
  intro cs
  induction cs with
  | nil =>
    intro buffer st h
    simp [runGenLoop, extractAll_none h]
  | cons c cs ih =>
    intro buffer st h
    simp only [runGenLoop]
    rw [ih _ _ (extractAll_leftover _)]
    have hassoc : buffer ++ (c :: cs).flatten = (buffer ++ c) ++ cs.flatten := by
      simp [List.flatten_cons, List.append_assoc]
    rw [hassoc, extractAll_append (buffer ++ c) cs.flatten]
    simp [List.foldl_append]

/-- C2: For every JSON-object stream and every way of splitting its full text
at arbitrary offsets into chunks, the streaming loop of generateMermaidFromText
produces the identical ordered sequence of onChunk invocations and the same
final mermaidCode as decoding the unsplit concatenation, for every decoding of
the extracted message spans. -/
theorem json_chunk_boundary_independence (parse : List Char → Option JsonVal)
    (chunks : List (List Char)) :
    generateMermaidStreamResult parse chunks =
      generateMermaidStreamResult parse [chunks.flatten] := by
  unfold generateMermaidStreamResult
  rw [runGenLoop_flatten parse chunks [] _ (findJsonObjectEnd_nil 0),
      runGenLoop_flatten parse [chunks.flatten] [] _ (findJsonObjectEnd_nil 0)]
  simp

/-- Splitting of the message fold into the emitted deltas and the
last-final-wins accumulation. -/
theorem genFold_split (parse : List Char → Option JsonVal) :
    ∀ (msgs : List (List Char)) (st : List String × String),
    msgs.foldl (handleGenMsg parse) st =
      (st.1 ++ genDeltas parse msgs, genFinalFrom parse st.2 msgs) := by
  intro msgs
  induction msgs with
  | nil => intro st; simp [genDeltas, genFinalFrom]
  | cons m ms ih =>
    intro st
    simp only [List.foldl_cons]
    rw [ih]
    simp only [genDeltas, genFinalFrom, List.filterMap_cons, List.foldl_cons]
    cases hp : parse m with
    | none => simp [handleGenMsg, hp, genDeltas, genFinalFrom]
    | some d =>
      by_cases herr : truthyS d.error = true
      · simp [handleGenMsg, hp, herr, genDeltas, genFinalFrom]
      · by_cases hch : truthyS d.chunk = true ∧ d.done = false
        · by_cases hfin : d.done = true ∧ truthyS d.mermaidCode = true
          · simp [handleGenMsg, hp, herr, hch, hfin, genDeltas, genFinalFrom]
          · simp [handleGenMsg, hp, herr, hch, hfin, genDeltas, genFinalFrom]
        · by_cases hfin : d.done = true ∧ truthyS d.mermaidCode = true
          · simp [handleGenMsg, hp, herr, hch, hfin, genDeltas, genFinalFrom]
          · simp [handleGenMsg, hp, herr, hch, hfin, genDeltas, genFinalFrom]

theorem handleSseEvent_split (parse : List Char → Option SsePayload)
    (st : List String × String) (evt : List Char) :
    handleSseEvent parse st evt =
      (st.1 ++ sseEvtDelta parse evt, sseFinalStep parse st.2 evt) := by
  unfold handleSseEvent sseEvtDelta sseFinalStep
  by_cases hl : (jsTrim evt).take 5 = "data:".toList
  · simp only [if_pos hl]
    by_cases he : jsTrim ((jsTrim evt).drop 5) = []
    · simp only [if_pos he]
      simp
    · simp only [if_neg he]
      cases hp : parse (jsTrim ((jsTrim evt).drop 5)) with
      | none => simp
      | some p =>
        by_cases hc : p.type = some "chunk" ∧ truthyS p.data = true
        · simp only [if_pos hc]
        · simp only [if_neg hc]
          by_cases hf : p.type = some "final" ∧ p.ok = true
          · simp only [if_pos hf]
            simp
          · simp only [if_neg hf]
            by_cases herr : p.type = some "error"
            · simp only [if_pos herr]
              simp
            · simp only [if_neg herr]
              simp
  · simp only [if_neg hl]
    simp

theorem sseFold_split (parse : List Char → Option SsePayload) :
    ∀ (evts : List (List Char)) (st : List String × String),
    evts.foldl (handleSseEvent parse) st =
      (st.1 ++ sseDeltas parse evts, sseFinalFrom parse st.2 evts) := by
  intro evts
  induction evts with
  | nil => intro st; simp [sseDeltas, sseFinalFrom]
  | cons e es ih =>
    intro st
    simp only [List.foldl_cons]
    rw [handleSseEvent_split, ih]
    simp [sseDeltas, sseFinalFrom, List.append_assoc]

/-- The whole SSE loop is one fold over the per-chunk event lists in order. -/
theorem optimizeStream_eq_events_fold (parse : List Char → Option SsePayload) :
    ∀ (chunks : List (List Char)) (st : List String × String),
    chunks.foldl (runOptChunk parse) st =
      ((chunks.map sseEventsOf).flatten).foldl (handleSseEvent parse) st := by
  intro chunks
  induction chunks with
  | nil => intro st; simp
  | cons c cs ih =>
    intro st
    simp only [List.foldl_cons, List.map_cons, List.flatten_cons, List.foldl_append]
    rw [ih]
    rfl

theorem optFold_events (parse : List Char → Option SsePayload) :
    ∀ (chunks : List (List Char)) (st : List String × String),
    (chunks.foldl (runOptChunk parse) st).1 =
      st.1 ++ (chunks.map (fun c => (runOptChunk parse ([], "") c).1)).flatten := by
  intro chunks
  induction chunks with
  | nil => intro st; simp
  | cons c cs ih =>
    intro st
    simp only [List.foldl_cons, List.map_cons, List.flatten_cons]
    rw [ih]
    unfold runOptChunk
    rw [sseFold_split, sseFold_split]
    simp [List.append_assoc]

/-- C1 evaluation at the failing input: after an SSE payload of type error,
the stream is not aborted.  The throw of line 173 is caught by the per-event
catch whose body is continue, so the later chunk payload is still decoded and
forwarded to the sink, the later final payload still lands in mermaidFull, and
the call resolves with optimizedCode "F" and error null instead of an empty
optimizedCode and the carried message "boom". -/
theorem sse_error_event_does_not_abort :
    optimizeStreamResult parseSseErrCase
      [("data: \x7b\"type\":\"error\",\"message\":\"boom\"\x7d\n\n" ++
        "data: \x7b\"type\":\"chunk\",\"data\":\"x\"\x7d\n\n" ++
        "data: \x7b\"type\":\"final\",\"ok\":true,\"data\":\"F\"\x7d\n\n").toList] =
      (["x"], "F", none) := by
  decide

/-- C3 counterexample: the SSE consumer of optimizeMermaidCode keeps no
cross-chunk buffer, so an SSE event whose text is split across two network
chunks at an interior offset is decoded zero times (both fragments are
discarded), while the unsplit stream decodes it exactly once. -/
theorem sse_split_event_lost :
    (optimizeStreamResult parseSseSplitCase
        ["data: \x7b\"type\":\"chunk\",\"da".toList, "ta\":\"hello\"\x7d\n\n".toList]).1 = []
    ∧ (optimizeStreamResult parseSseSplitCase
        [("data: \x7b\"type\":\"chunk\",\"da" ++ "ta\":\"hello\"\x7d\n\n").toList]).1 =
      ["hello"] := by
  constructor
  · decide
  · decide

/-- C3 amended: the SSE consumer retains nothing between chunks; every network
chunk is split and scanned on its own, so the emitted sink payloads of the
whole stream are exactly the concatenation of the per-chunk scans.  An event
spanning a chunk boundary is therefore never reassembled (see the
counterexample). -/
theorem sse_chunks_scanned_independently (parse : List Char → Option SsePayload)
    (chunks : List (List Char)) :
    (optimizeStream parse chunks).1 =
      (chunks.map (fun c => (runOptChunk parse ([], "") c).1)).flatten := by
  unfold optimizeStream
  rw [optFold_events]
  simp

/-- C5 counterexample: in JSON mode, after the final message carrying
mermaidCode "A" has been processed, a subsequent delta still triggers an
onChunk invocation (payload "x") and a subsequent final message overwrites the
accumulated content with "B".  Events after a terminating event are not
ignored. -/
theorem events_after_final_still_processed :
    generateMermaidStreamResult parseGenFinalCase
      [("\x7b\"done\":true,\"mermaidCode\":\"A\"\x7d" ++
        "\x7b\"chunk\":\"x\",\"done\":false\x7d" ++
        "\x7b\"done\":true,\"mermaidCode\":\"B\"\x7d").toList] =
      (["x"], "B", none) ∧ ("B" : String) ≠ "A" := by
  constructor
  · decide
  · decide

/-- C5 amended: neither stream consumer keeps any termination state.  In both
modes the processing is a plain fold over the decoded messages: every
error-free delta message invokes the sink exactly once regardless of its
position (also after a final), and the accumulated final content is the value
of the last final message (a later final overwrites an earlier one); only the
end of the source terminates processing. -/
theorem stream_no_termination_state :
    (∀ (parse : List Char → Option JsonVal) (chunks : List (List Char)),
      generateMermaidStreamResult parse chunks =
        (genDeltas parse (extractAll chunks.flatten).1,
         genFinalFrom parse "" (extractAll chunks.flatten).1, none))
    ∧ (∀ (parse : List Char → Option SsePayload) (chunks : List (List Char)),
      optimizeStreamResult parse chunks =
        (sseDeltas parse ((chunks.map sseEventsOf).flatten),
         sseFinalFrom parse "" ((chunks.map sseEventsOf).flatten), none)) := by
  constructor
  · intro parse chunks
    unfold generateMermaidStreamResult
    rw [runGenLoop_flatten parse chunks [] _ (findJsonObjectEnd_nil 0), genFold_split]
    simp
  · intro parse chunks
    unfold optimizeStreamResult optimizeStream
    rw [optimizeStream_eq_events_fold, sseFold_split]
    simp

/-- C7 evaluation at the failing input: a message carrying an error field
after a delta message does not surface the error.  The throw of line 81 is
caught by the inner catch of line 97 (meant for malformed spans), so
generateMermaidFromText resolves with mermaidCode "" and error null instead of
the error text "x". -/
theorem json_error_event_swallowed :
    generateMermaidStreamResult parseGenErrCase
      [("\x7b\"chunk\":\"a\",\"done\":false\x7d" ++ "\x7b\"error\":\"x\"\x7d").toList] =
      (["a"], "", none) := by
  decide

/-- C10: generateMermaidFromText resolves early, with empty mermaidCode and an
error message, when its input precondition fails: for empty text immediately,
and for text whose cleaned length exceeds the configured character limit.  In
both cases the outcome is the early-error one, so no fetch is issued and the
sink callback is never invoked. -/
theorem gen_precheck_early_errors (cleanTextF : String → String) (maxChars : Nat)
    (maxCharsStr : String) (text : String) :
    (text = "" → generateMermaidPrecheck cleanTextF maxChars maxCharsStr text =
      .earlyError "" "请提供文本内容")
    ∧ (text ≠ "" → (cleanTextF text).length > maxChars →
      generateMermaidPrecheck cleanTextF maxChars maxCharsStr text =
        .earlyError "" ("文本超过" ++ maxCharsStr ++ "字符限制")) := by
  constructor
  · intro h
    simp [generateMermaidPrecheck, h]
  · intro h1 h2
    simp [generateMermaidPrecheck, h1, h2]

theorem gen_precheck_early_errors_witness :
    generateMermaidPrecheck id 20000 "20000" "" = .earlyError "" "请提供文本内容"
    ∧ generateMermaidPrecheck id 20000 "20000" (String.mk (List.replicate 20001 'a')) =
      .earlyError "" "文本超过20000字符限制" := by
  constructor
  · exact (gen_precheck_early_errors id 20000 "20000" "").1 rfl
  · have hlen : (String.mk (List.replicate 20001 'a')).length = 20001 := by
      rw [show (String.mk (List.replicate 20001 'a')).length =
            (List.replicate 20001 'a').length from rfl, List.length_replicate]
    refine (gen_precheck_early_errors id 20000 "20000" _).2 ?_ ?_
    · intro h
      have hl : (String.mk (List.replicate 20001 'a')).length = ("" : String).length := by
        rw [h]
      rw [hlen] at hl
      simp at hl
    · show (id (String.mk (List.replicate 20001 'a'))).length > 20000
      rw [id_eq, hlen]
      omega

/-! Lemmas about the fence regexp model. -/

theorem findTriple_cons (c : Char) (t : List Char) (i : Nat) :
    findTriple (c :: t) i =
      if (c :: t).take 3 = "```".toList then some i else findTriple t (i + 1) := rfl

theorem findTriple_shift : ∀ (s : List Char) (i : Nat),
    findTriple s i = (findTriple s 0).map (· + i) := by
  intro s
  induction s with
  | nil => intro i; rfl
  | cons c t ih =>
    intro i
    rw [findTriple_cons, findTriple_cons]
    by_cases h : (c :: t).take 3 = "```".toList
    · simp [h]
    · rw [if_neg h, if_neg h, ih (i + 1), ih 1]
      cases findTriple t 0 with
      | none => rfl
      | some p => simp; omega

theorem findTriple_none_cons {c : Char} {t : List Char}
    (h : findTriple (c :: t) 0 = none) :
    ¬(c :: t).take 3 = "```".toList ∧ findTriple t 0 = none := by
  rw [findTriple_cons] at h
  by_cases hc : (c :: t).take 3 = "```".toList
  · rw [if_pos hc] at h; exact absurd h (by simp)
  · rw [if_neg hc, findTriple_shift] at h
    refine ⟨hc, ?_⟩
    cases hf : findTriple t 0 with
    | none => rfl
    | some p => rw [hf] at h; simp at h

/-- Any text containing the delimiter makes the search succeed. -/
theorem findTriple_decomp_isSome : ∀ (pre suf : List Char),
    (findTriple (pre ++ "```".toList ++ suf) 0).isSome = true := by
  intro pre
  induction pre with
  | nil =>
    intro suf
    have htake : (("```".toList ++ suf) : List Char).take 3 = "```".toList := by
      have h3 := List.take_left ("```".toList) suf
      simp only [show ("```".toList : List Char).length = 3 from rfl] at h3
      exact h3
    simp only [List.nil_append]
    rw [show ("```".toList ++ suf : List Char) = '`' :: ("``".toList ++ suf) from rfl]
    rw [findTriple_cons]
    rw [show ('`' :: ("``".toList ++ suf) : List Char) = "```".toList ++ suf from rfl, htake]
    simp
  | cons p pre' ih =>
    intro suf
    simp only [List.cons_append, List.append_assoc]
    rw [findTriple_cons]
    by_cases h : ((p :: (pre' ++ ("```".toList ++ suf))) : List Char).take 3 = "```".toList
    · rw [if_pos h]; rfl
    · rw [if_neg h, findTriple_shift]
      have ih' := ih suf
      rw [List.append_assoc] at ih'
      cases hf : findTriple (pre' ++ ("```".toList ++ suf)) 0 with
      | none => rw [hf] at ih'; simp at ih'
      | some p' => simp

/-- A leftmost regexp match needs an opening delimiter somewhere in the
text. -/
theorem fenceFirstMatch_decomp : ∀ (s : List Char) (g : List Char),
    fenceFirstMatch s = some g → ∃ pre suf, s = pre ++ "```".toList ++ suf := by
  intro s
  induction s with
  | nil => intro g h; simp [fenceFirstMatch] at h
  | cons c t ih =>
    intro g h
    unfold fenceFirstMatch at h
    cases hm : matchFenceAt (c :: t) with
    | some g' =>
      unfold matchFenceAt at hm
      by_cases htri : ((c :: t) : List Char).take 3 = "```".toList
      · refine ⟨[], (c :: t).drop 3, ?_⟩
        conv_lhs => rw [← List.take_append_drop 3 (c :: t)]
        rw [htri]
        simp
      · rw [if_neg htri] at hm; exact absurd hm (by simp)
    | none =>
      rw [hm] at h
      obtain ⟨pre, suf, hd⟩ := ih g h
      exact ⟨c :: pre, suf, by simp [hd]⟩

/-- Appending one non-backtick character cannot create a delimiter. -/
theorem findTriple_append_nb : ∀ (u : List Char) (x : Char),
    findTriple u 0 = none → x ≠ '`' → findTriple (u ++ [x]) 0 = none := by
  intro u
  induction u with
  | nil =>
    intro x _ hx
    rw [List.nil_append, show ([x] : List Char) = x :: [] from rfl, findTriple_cons]
    have : ¬([x] : List Char).take 3 = "```".toList := by
      intro h
      have := congrArg List.length h
      simp at this
    rw [if_neg this]
    rfl
  | cons c t ih =>
    intro x h hx
    obtain ⟨h1, h2⟩ := findTriple_none_cons h
    rw [List.cons_append, findTriple_cons]
    have hcond : ¬((c :: (t ++ [x])) : List Char).take 3 = "```".toList := by
      intro hc
      match t with
      | [] =>
        rw [show ((c :: ([] ++ [x])) : List Char) = [c, x] from rfl] at hc
        have := congrArg List.length hc
        simp at this
      | [d] =>
        rw [show ((c :: ([d] ++ [x])) : List Char) = [c, d, x] from rfl] at hc
        have : x = '`' := by
          have := congrArg (fun l => l.get? 2) hc
          simpa using this
        exact hx this
      | d :: e :: t' =>
        apply h1
        have heq : ((c :: ((d :: e :: t') ++ [x])) : List Char).take 3 = [c, d, e] := by
          simp [List.take]
        rw [heq] at hc
        simp [List.take, hc]
    rw [if_neg hcond, findTriple_shift, ih x h2 hx]
    rfl

/-- Prepending one non-backtick character cannot create a delimiter. -/
theorem findTriple_cons_nb (u : List Char) (x : Char)
    (hx : x ≠ '`') (h : findTriple u 0 = none) : findTriple (x :: u) 0 = none := by
  rw [findTriple_cons]
  have hcond : ¬((x :: u) : List Char).take 3 = "```".toList := by
    intro hc
    have : x = '`' := by
      have := congrArg (fun l => l.get? 0) hc
      simpa [List.take] using this
    exact hx this
  rw [if_neg hcond, findTriple_shift, h]
  rfl

/-- Dropping a prefix cannot create a delimiter. -/
theorem findTriple_drop : ∀ (k : Nat) (l : List Char),
    findTriple l 0 = none → findTriple (l.drop k) 0 = none := by
  intro k
  induction k with
  | zero => intro l h; simpa using h
  | succ k ih =>
    intro l h
    cases l with
    | nil => rfl
    | cons c t =>
      rw [List.drop_succ_cons]
      exact ih t (findTriple_none_cons h).2

/-- Exact position of the first delimiter when it is appended after
delimiter-free text not ending in a backtick. -/
theorem findTriple_exact : ∀ (u : List Char) (v : List Char) (i : Nat),
    findTriple u 0 = none → (∀ w, u ≠ w ++ ['`']) →
    findTriple (u ++ "```".toList ++ v) i = some (i + u.length) := by
  intro u
  induction u with
  | nil =>
    intro v i _ _
    have htake : (("```".toList ++ v) : List Char).take 3 = "```".toList := by
      have h3 := List.take_left ("```".toList) v
      simp only [show ("```".toList : List Char).length = 3 from rfl] at h3
      exact h3
    simp only [List.nil_append]
    rw [show ("```".toList ++ v : List Char) = '`' :: ("``".toList ++ v) from rfl,
        findTriple_cons]
    rw [show ('`' :: ("``".toList ++ v) : List Char) = "```".toList ++ v from rfl, htake]
    simp
  | cons c u' ih =>
    intro v i h hnb
    obtain ⟨h1, h2⟩ := findTriple_none_cons h
    simp only [List.cons_append, List.append_assoc]
    rw [findTriple_cons]
    have hcond : ¬((c :: (u' ++ ("```".toList ++ v))) : List Char).take 3 = "```".toList := by
      intro hc
      cases u' with
      | nil =>
        have hc' : ([c, '`', '`'] : List Char) = ['`', '`', '`'] := hc
        injection hc' with e1 _
        exact hnb [] (by simp [e1])
      | cons d u2 =>
        cases u2 with
        | nil =>
          have hc' : ([c, d, '`'] : List Char) = ['`', '`', '`'] := hc
          injection hc' with e1 hrest
          injection hrest with e2 _
          exact hnb [c] (by simp [e2])
        | cons e u3 =>
          apply h1
          have hc' : ([c, d, e] : List Char) = ['`', '`', '`'] := hc
          exact hc'
    rw [if_neg hcond]
    have hnb' : ∀ w, u' ≠ w ++ ['`'] := by
      intro w hw
      exact hnb (c :: w) (by simp [hw])
    have ih' := ih v 0 h2 hnb'
    rw [List.append_assoc] at ih'
    rw [findTriple_shift, ih']
    simp only [Option.map_some']
    congr 1
    simp only [List.length_cons]
    omega

/-! Lemmas about jsTrim. -/

theorem dropWhile_idem (p : Char → Bool) : ∀ (l : List Char),
    (l.dropWhile p).dropWhile p = l.dropWhile p := by
  intro l
  induction l with
  | nil => rfl
  | cons c t ih =>
    rw [List.dropWhile_cons]
    by_cases h : p c
    · simpa [h] using ih
    · simp [List.dropWhile_cons, h]

theorem jsTrim_dropWhile (l : List Char) :
    jsTrim (l.dropWhile isJsSpace) = jsTrim l := by
  unfold jsTrim
  rw [dropWhile_idem]

theorem jsTrim_nil : jsTrim [] = [] := rfl

theorem jsTrim_cons_ws {c : Char} (hc : isJsSpace c = true) (l : List Char) :
    jsTrim (c :: l) = jsTrim l := by
  unfold jsTrim
  rw [List.dropWhile_cons, if_pos hc]

theorem jsTrim_append_ws {c : Char} (hc : isJsSpace c = true) (l : List Char) :
    jsTrim (l ++ [c]) = jsTrim l := by
  unfold jsTrim
  rw [List.dropWhile_append]
  by_cases h : (l.dropWhile isJsSpace).isEmpty
  · rw [if_pos h]
    have h' : l.dropWhile isJsSpace = [] := by
      cases hd : l.dropWhile isJsSpace with
      | nil => rfl
      | cons a t => rw [hd] at h; simp at h
    rw [h']
    simp [List.dropWhile_cons, hc]
  · rw [if_neg h]
    rw [List.reverse_append]
    rw [show (([c] : List Char).reverse = [c]) from rfl]
    rw [show (([c] : List Char) ++ (l.dropWhile isJsSpace).reverse =
          c :: (l.dropWhile isJsSpace).reverse) from rfl]
    rw [List.dropWhile_cons, if_pos hc]

theorem jsTrim_of_dropWhile_nil {l : List Char}
    (h : l.dropWhile isJsSpace = []) : jsTrim l = [] := by
  unfold jsTrim
  rw [h]
  rfl

theorem drop_wsRunLen : ∀ (l : List Char),
    l.drop (wsRunLen l) = l.dropWhile isJsSpace := by
  intro l
  induction l with
  | nil => rfl
  | cons c t ih =>
    unfold wsRunLen
    rw [List.takeWhile_cons, List.dropWhile_cons]
    by_cases h : isJsSpace c
    · simpa [h] using ih
    · simp [h]

theorem getLast?_append_singleton (l : List Char) (a : Char) :
    (l ++ [a]).getLast? = some a := by
  induction l with
  | nil => rfl
  | cons c t ih =>
    rw [List.cons_append, List.getLast?_cons]
    cases t with
    | nil => rfl
    | cons d t' =>
      rw [List.cons_append] at ih ⊢
      simp only [List.getLast?_cons] at ih ⊢
      exact ih

/-- Tail match against the text between the optional tag and the closing
delimiter of an exactly enclosed block: it succeeds and its trimmed group is
the trimmed body. -/
theorem fenceTail_mid (body : List Char) (hb : findTriple body 0 = none) :
    ∃ g, fenceTail ((('\n' :: body) ++ ['\n']) ++ "```".toList) = some g ∧
      jsTrim g = jsTrim body := by
  set mid : List Char := ('\n' :: body) ++ ['\n'] with hmid
  have hmid_none : findTriple mid 0 = none := by
    rw [hmid, List.cons_append]
    exact findTriple_cons_nb _ '\n' (by decide)
      (findTriple_append_nb body '\n' hb (by decide))
  simp only [fenceTail]
  rw [drop_wsRunLen]
  rw [List.dropWhile_append]
  by_cases hA : (mid.dropWhile isJsSpace).isEmpty
  · rw [if_pos hA]
    have hmid_nil : mid.dropWhile isJsSpace = [] := by
      cases hd : mid.dropWhile isJsSpace with
      | nil => rfl
      | cons a t => rw [hd] at hA; simp at hA
    have hbody_nil : body.dropWhile isJsSpace = [] := by
      rw [hmid, List.cons_append, List.dropWhile_cons] at hmid_nil
      rw [if_pos (show isJsSpace '\n' = true from rfl)] at hmid_nil
      rw [List.dropWhile_append] at hmid_nil
      by_cases hbe : (body.dropWhile isJsSpace).isEmpty
      · cases hd : body.dropWhile isJsSpace with
        | nil => rfl
        | cons a t => rw [hd] at hbe; simp at hbe
      · rw [if_neg hbe] at hmid_nil
        exact absurd hmid_nil (by simp)
    refine ⟨[], ?_, by rw [jsTrim_nil, jsTrim_of_dropWhile_nil hbody_nil]⟩
    rw [show (("```".toList : List Char).dropWhile isJsSpace = "```".toList) from rfl]
    rw [show (findTriple ("```".toList) 0 = some 0) from rfl]
    rfl
  · rw [if_neg hA]
    set m' : List Char := mid.dropWhile isJsSpace with hm'
    have hm'_none : findTriple m' 0 = none := by
      rw [hm', ← drop_wsRunLen]
      exact findTriple_drop _ _ hmid_none
    have hm'_nb : ∀ w, m' ≠ w ++ ['`'] := by
      intro w hw
      have hsplit : mid = mid.take (wsRunLen mid) ++ m' := by
        rw [hm', ← drop_wsRunLen, List.take_append_drop]
      have h1 : mid.getLast? = some '\n' := by
        rw [hmid]
        exact getLast?_append_singleton _ _
      have h2 : mid.getLast? = some '`' := by
        rw [hsplit, hw, ← List.append_assoc]
        exact getLast?_append_singleton _ _
      rw [h1] at h2
      simp at h2
    have hfind : findTriple (m' ++ "```".toList) 0 = some m'.length := by
      have := findTriple_exact m' [] 0 hm'_none hm'_nb
      simpa using this
    rw [hfind]
    refine ⟨(m' ++ "```".toList).take m'.length, rfl, ?_⟩
    rw [List.take_left]
    rw [hm', jsTrim_dropWhile, hmid, List.cons_append]
    rw [jsTrim_cons_ws (show isJsSpace '\n' = true from rfl)]
    rw [jsTrim_append_ws (show isJsSpace '\n' = true from rfl)]

/-- Match of the regexp at the start of an exactly enclosed block with the
mermaid tag: the match succeeds with a group that trims to the trimmed
body. -/
theorem matchFenceAt_enclosed (body : List Char) (hb : findTriple body 0 = none) :
    ∃ g, matchFenceAt ("```mermaid\n".toList ++ (body ++ "\n```".toList)) = some g ∧
      jsTrim g = jsTrim body := by
  obtain ⟨g, hg, hjg⟩ := fenceTail_mid body hb
  refine ⟨g, ?_, hjg⟩
  have hred : matchFenceAt ("```mermaid\n".toList ++ (body ++ "\n```".toList)) =
      (match fenceTail ('\n' :: (body ++ "\n```".toList)) with
       | some g' => some g'
       | none => fenceTail ("mermaid\n".toList ++ (body ++ "\n```".toList))) := rfl
  have harg : ('\n' :: (body ++ "\n```".toList) : List Char) =
      (('\n' :: body) ++ ['\n']) ++ "```".toList := by
    simp only [List.cons_append, List.append_assoc]
    rfl
  rw [hred, harg, hg]

/-- A delimiter-free text does not even start with the delimiter. -/
theorem findTriple_none_take3 (l : List Char) (h : findTriple l 0 = none) :
    l.take 3 ≠ "```".toList := by
  cases l with
  | nil => intro hc; exact absurd hc (by decide)
  | cons c t => exact (findTriple_none_cons h).1

/-- The regexp cannot match at a position that does not start with the
opening delimiter. -/
theorem matchFenceAt_none_of_take3 (s : List Char)
    (h : s.take 3 ≠ "```".toList) : matchFenceAt s = none := by
  unfold matchFenceAt
  rw [if_neg h]

/-- The tail match fails on every suffix of a delimiter-free text: no closing
delimiter is available. -/
theorem fenceTail_none_drop (b : List Char) (j : Nat)
    (hb : findTriple b 0 = none) : fenceTail (b.drop j) = none := by
  simp only [fenceTail]
  have hfd : findTriple ((b.drop j).drop (wsRunLen (b.drop j))) 0 = none := by
    rw [List.drop_drop]
    exact findTriple_drop _ b hb
  rw [hfd]

/-- An opening delimiter followed by delimiter-free text matches nothing:
both the tagged and the untagged branch fail for lack of a closing
delimiter. -/
theorem matchFenceAt_open_none (b : List Char) (hb : findTriple b 0 = none) :
    matchFenceAt ("```".toList ++ b) = none := by
  have h0 : fenceTail b = none := by
    have h := fenceTail_none_drop b 0 hb
    rwa [List.drop_zero] at h
  have hred : matchFenceAt ("```".toList ++ b) =
      (if b.take 7 = "mermaid".toList then
        match fenceTail (b.drop 7) with
        | some g => some g
        | none => fenceTail b
       else fenceTail b) := rfl
  rw [hred]
  by_cases hm : b.take 7 = "mermaid".toList
  · rw [if_pos hm, fenceTail_none_drop b 7 hb]
    exact h0
  · rw [if_neg hm]
    exact h0

/-- No match starting inside the last two backticks of an opening run whose
remainder is delimiter-free. -/
theorem matchFenceAt_two_none (b : List Char) (hb : findTriple b 0 = none) :
    matchFenceAt ('`' :: '`' :: b) = none := by
  cases b with
  | nil => decide
  | cons c b' =>
    by_cases hc : c = '`'
    · subst hc
      exact matchFenceAt_open_none b' (findTriple_none_cons hb).2
    · apply matchFenceAt_none_of_take3
      intro hc'
      have h : (['`', '`', c] : List Char) = ['`', '`', '`'] := hc'
      injection h with e1 h
      injection h with e2 h
      injection h with e3 h
      exact hc e3

/-- No match starting at the last backtick of an opening run whose remainder
is delimiter-free. -/
theorem matchFenceAt_one_none (b : List Char) (hb : findTriple b 0 = none) :
    matchFenceAt ('`' :: b) = none := by
  cases b with
  | nil => decide
  | cons c b' =>
    by_cases hc : c = '`'
    · subst hc
      exact matchFenceAt_two_none b' (findTriple_none_cons hb).2
    · apply matchFenceAt_none_of_take3
      intro hc'
      have h : ('`' :: c :: b'.take 1 : List Char) = ['`', '`', '`'] := hc'
      injection h with e1 h
      injection h with e2 h
      exact hc e2

/-- The leftmost search fails when the regexp matches at no position. -/
theorem fenceFirstMatch_of_matches_none : ∀ s : List Char,
    (∀ j, matchFenceAt (s.drop j) = none) → fenceFirstMatch s = none := by
  intro s
  induction s with
  | nil => intro _; rfl
  | cons c t ih =>
    intro h
    have h0 : matchFenceAt (c :: t) = none := h 0
    have hrec : fenceFirstMatch t = none := ih (fun j => h (j + 1))
    have hstep : fenceFirstMatch (c :: t) =
        (match matchFenceAt (c :: t) with
         | some g => some g
         | none => fenceFirstMatch t) := rfl
    rw [hstep, h0]
    exact hrec

/-- A text made of a backtick-free prefix, one opening delimiter and a
delimiter-free tail has no regexp match anywhere: the opening fence is never
closed. -/
theorem fenceFirstMatch_unmatched_open (a b : List Char)
    (ha : ∀ c ∈ a, c ≠ '`') (hb : findTriple b 0 = none) :
    fenceFirstMatch (a ++ "```".toList ++ b) = none := by
  apply fenceFirstMatch_of_matches_none
  intro j
  rw [List.append_assoc]
  by_cases hj : j ≤ a.length
  · rw [List.drop_append_of_le_length hj]
    cases hdrop : a.drop j with
    | nil =>
      rw [List.nil_append]
      exact matchFenceAt_open_none b hb
    | cons x t' =>
      have hx : x ∈ a :=
        List.drop_subset j a (by rw [hdrop]; exact List.mem_cons_self x t')
      apply matchFenceAt_none_of_take3
      intro hc
      have h1 : x = '`' := by
        have := congrArg (fun l => l.get? 0) hc
        simpa [List.take] using this
      exact ha x hx h1
  · obtain ⟨k, hk1, hkeq⟩ : ∃ k, 1 ≤ k ∧ j = a.length + k :=
      ⟨j - a.length, by omega, by omega⟩
    rw [hkeq, List.drop_append]
    by_cases h3 : 3 ≤ k
    · have h33 : ("```".toList ++ b : List Char).drop 3 = b := rfl
      have hsplit : ("```".toList ++ b : List Char).drop k = b.drop (k - 3) := by
        conv_lhs => rw [show k = 3 + (k - 3) from by omega]
        rw [← List.drop_drop, h33]
      rw [hsplit]
      apply matchFenceAt_none_of_take3
      exact findTriple_none_take3 _ (findTriple_drop _ b hb)
    · have hk12 : k = 1 ∨ k = 2 := by omega
      cases hk12 with
      | inl h1 => rw [h1]; exact matchFenceAt_two_none b hb
      | inr h2 => rw [h2]; exact matchFenceAt_one_none b hb

/-- C9 counterexample: the fence-stripping regexp is not anchored, so a text
that is not enclosed in a fenced code block (here a fence appears in the
middle of the line) is not returned unchanged: its first fenced region is
extracted instead. -/
theorem fence_strip_not_anchored :
    extractCodeBlock ("x ```y``` z".toList) = "y".toList
    ∧ extractCodeBlock ("x ```y``` z".toList) ≠ "x ```y``` z".toList := by
  constructor
  · decide
  · decide

/-- C9 amended: the post-processing does not check that the fence exactly
encloses the text (the regexp matches anywhere, as the counterexample shows),
and trims the extracted group.  Precisely: a text containing no
triple-backtick delimiter at all is returned unchanged; a text holding an
unmatched fence — a backtick-free prefix, one opening delimiter, then a
delimiter-free tail, so that no closing delimiter follows — is also returned
unchanged; and a text that is exactly a mermaid-tagged fenced block whose
body contains no delimiter yields the trimmed body. -/
theorem fence_strip_amended :
    (∀ s : List Char, hasTriple s = false → extractCodeBlock s = s)
    ∧ (∀ a b : List Char, (∀ c ∈ a, c ≠ '`') → hasTriple b = false →
        extractCodeBlock (a ++ "```".toList ++ b) = a ++ "```".toList ++ b)
    ∧ (∀ body : List Char, hasTriple body = false →
        extractCodeBlock ("```mermaid\n".toList ++ body ++ "\n```".toList) =
          jsTrim body) := by
  refine ⟨?_, ?_, ?_⟩
  · intro s hs
    have hnone : findTriple s 0 = none := by
      unfold hasTriple at hs
      cases hf : findTriple s 0 with
      | none => rfl
      | some p => rw [hf] at hs; simp at hs
    unfold extractCodeBlock
    cases hm : fenceFirstMatch s with
    | none => rfl
    | some g =>
      obtain ⟨pre, suf, hd⟩ := fenceFirstMatch_decomp s g hm
      have hsome := findTriple_decomp_isSome pre suf
      rw [← hd, hnone] at hsome
      simp at hsome
  · intro a b ha hb
    have hbnone : findTriple b 0 = none := by
      unfold hasTriple at hb
      cases hf : findTriple b 0 with
      | none => rfl
      | some p => rw [hf] at hb; simp at hb
    unfold extractCodeBlock
    rw [fenceFirstMatch_unmatched_open a b ha hbnone]
  · intro body hb
    have hbnone : findTriple body 0 = none := by
      unfold hasTriple at hb
      cases hf : findTriple body 0 with
      | none => rfl
      | some p => rw [hf] at hb; simp at hb
    obtain ⟨g, hmatch, hjg⟩ := matchFenceAt_enclosed body hbnone
    rw [List.append_assoc]
    have hfirst : fenceFirstMatch ("```mermaid\n".toList ++ (body ++ "\n```".toList)) =
        some g := by
      have hstep : fenceFirstMatch ("```mermaid\n".toList ++ (body ++ "\n```".toList)) =
          (match matchFenceAt ("```mermaid\n".toList ++ (body ++ "\n```".toList)) with
           | some g' => some g'
           | none => fenceFirstMatch ("``mermaid\n".toList ++ (body ++ "\n```".toList))) :=
        rfl
      rw [hstep, hmatch]
    unfold extractCodeBlock
    rw [hfirst]
    exact hjg

theorem fence_strip_amended_witness :
    extractCodeBlock ("hello".toList) = "hello".toList
    ∧ extractCodeBlock ("a```b".toList) = "a```b".toList
    ∧ extractCodeBlock ("```mermaid\n graph TD \n```".toList) =
      jsTrim (" graph TD ".toList) := by
  refine ⟨?_, ?_, ?_⟩
  · exact fence_strip_amended.1 "hello".toList (by decide)
  · have h := fence_strip_amended.2.1 "a".toList "b".toList (by decide) (by decide)
    rw [show ("a```b".toList : List Char) =
          "a".toList ++ "```".toList ++ "b".toList from rfl]
    exact h
  · have h := fence_strip_amended.2.2 (" graph TD ".toList) (by decide)
    rw [show ("```mermaid\n graph TD \n```".toList : List Char) =
          "```mermaid\n".toList ++ " graph TD ".toList ++ "\n```".toList from rfl]
    exact h

/-! Pass-through lemmas: scanning well-formed content neither returns nor
disturbs the state. -/

theorem strBody_scan {bs : List Char} (h : StrBody bs) :
    ∀ (t : List Char) (i : Nat) (d : Int),
    scanBrace (bs ++ t) i d true false = scanBrace t (i + bs.length) d true false := by
  induction h with
  | nil => intro t i d; simp
  | plain hq hbs _ ih =>
    intro t i d
    rename_i c t' _
    rw [List.cons_append, scanBrace_inStr c _ _ _ hq hbs, ih]
    congr 1
    simp only [List.length_cons]
    omega
  | esc _ ih =>
    intro t i d
    rename_i c t' _
    rw [List.cons_append, scanBrace_backslash, List.cons_append, scanBrace_esc, ih]
    congr 1
    simp only [List.length_cons]
    omega

theorem jstr_scan {s : List Char} (h : JStr s) (t : List Char) (i : Nat) (d : Int) :
    scanBrace (s ++ t) i d false false = scanBrace t (i + s.length) d false false := by
  obtain ⟨b, hb, rfl⟩ := h
  simp only [List.cons_append, List.append_assoc, List.singleton_append]
  rw [scanBrace_quote]
  simp only [Bool.not_false]
  rw [strBody_scan hb, scanBrace_quote]
  simp only [Bool.not_true]
  congr 1
  simp only [List.length_cons, List.length_append, List.length_singleton, List.length_nil]
  omega

theorem items_scan : ∀ (n : Nat) (s : List Char), s.length ≤ n → Items s →
    ∀ (t : List Char) (i : Nat) (d : Int), 1 ≤ d →
    scanBrace (s ++ t) i d false false = scanBrace t (i + s.length) d false false := by
  intro n
  induction n with
  | zero =>
    intro s hs _ t i d _
    have hnil : s = [] := List.length_eq_zero.mp (by omega)
    subst hnil
    simp
  | succ n ih =>
    intro s hs hitems t i d hd
    cases hitems with
    | nil => simp
    | plain hc1 hc2 hc3 htail =>
      rename_i c s'
      rw [List.cons_append, scanBrace_other c _ _ _ hc3 hc1 hc2]
      rw [ih s' (by simp only [List.length_cons] at hs; omega) htail t (i + 1) d hd]
      congr 1
      simp only [List.length_cons]
      omega
    | str hJ htail =>
      rename_i a b
      obtain ⟨bd, hbd, ha⟩ := hJ
      have hlen : a.length = bd.length + 2 := by
        rw [ha]
        simp only [List.length_append, List.length_cons, List.length_singleton, List.length_nil]
      have hsl : a.length + b.length ≤ n + 1 := by
        rw [List.length_append] at hs
        omega
      rw [List.append_assoc, jstr_scan ⟨bd, hbd, ha⟩]
      rw [ih b (by omega) htail t (i + a.length) d hd]
      congr 1
      simp only [List.length_append]
      omega
    | obj hinner htail =>
      rename_i inner b
      have hsl : inner.length + 2 + b.length ≤ n + 1 := by
        simp only [List.length_append, List.length_cons, List.length_singleton] at hs
        omega
      simp only [List.cons_append, List.append_assoc, List.singleton_append, List.nil_append]
      rw [scanBrace_open]
      rw [ih inner (by omega) hinner ('}' :: (b ++ t)) (i + 1) (d + 1) (by omega)]
      rw [scanBrace_close]
      rw [if_neg (by omega : ¬d + 1 - 1 = 0)]
      have hdd : d + 1 - 1 = d := by omega
      rw [hdd]
      rw [ih b (by omega) htail t (i + 1 + inner.length + 1) d hd]
      congr 1
      simp only [List.length_cons, List.length_append, List.length_singleton, List.length_nil]
      omega

/-- Scanning the interior of a balanced object from depth 1 returns exactly at
its closing brace. -/
theorem items_scan_top {inner : List Char} (hinner : Items inner)
    (rest : List Char) (i : Nat) :
    scanBrace (inner ++ '}' :: rest) i 1 false false = some (i + inner.length) := by
  rw [items_scan inner.length inner le_rfl hinner ('}' :: rest) i 1 le_rfl]
  rw [scanBrace_close]
  rw [if_pos (by omega : (1 : Int) - 1 = 0)]

/-! Reconstruction lemmas: a successful scan decomposes its input according to
the grammar. -/

theorem preClose_pos {d : Int} {u : List Char} (h : PreClose d u) : 1 ≤ d := by
  induction h with
  | one _ => omega
  | step _ _ ih => omega

theorem preClose_prepend {x : List Char} (hx : ∀ w, Items w → Items (x ++ w)) :
    ∀ {d : Int} {v : List Char}, PreClose d v → PreClose d (x ++ v) := by
  intro d v h
  induction h with
  | one hu => exact PreClose.one (hx _ hu)
  | step hu hv _ =>
    rw [← List.append_assoc]
    exact PreClose.step (hx _ hu) hv

/-- Inversion of a scan that starts inside a string literal: the input starts
with a string body, its closing quote, and a continuation scanned outside of
strings. -/
theorem scanBrace_strInv : ∀ (n : Nat) (s : List Char) (i : Nat) (d : Int) (j : Nat),
    s.length ≤ n → scanBrace s i d true false = some j →
    ∃ bs rest, StrBody bs ∧ s = bs ++ '"' :: rest ∧
      scanBrace rest (i + bs.length + 1) d false false = some j := by
  intro n
  induction n with
  | zero =>
    intro s i d j hs h
    have hnil : s = [] := List.length_eq_zero.mp (by omega)
    subst hnil
    simp [scanBrace] at h
  | succ n ih =>
    intro s i d j hs h
    cases s with
    | nil => simp [scanBrace] at h
    | cons c t =>
      by_cases hq : c = '"'
      · subst hq
        rw [scanBrace_quote] at h
        refine ⟨[], t, StrBody.nil, by simp, ?_⟩
        simpa using h
      · by_cases hbs : c = '\\'
        · subst hbs
          rw [scanBrace_backslash] at h
          cases t with
          | nil => simp [scanBrace] at h
          | cons c2 t2 =>
            rw [scanBrace_esc] at h
            obtain ⟨bs, rest, hsb, heq, hsc⟩ := ih t2 (i + 1 + 1) d j
              (by simp only [List.length_cons] at hs; omega) h
            refine ⟨'\\' :: c2 :: bs, rest, StrBody.esc hsb, by simp [heq], ?_⟩
            simp only [List.length_cons]
            rw [show i + (bs.length + 1 + 1) + 1 = i + 1 + 1 + bs.length + 1 from by omega]
            exact hsc
        · rw [scanBrace_inStr c t i d hq hbs] at h
          obtain ⟨bs, rest, hsb, heq, hsc⟩ := ih t (i + 1) d j
            (by simp only [List.length_cons] at hs; omega) h
          refine ⟨c :: bs, rest, StrBody.plain hq hbs hsb, by simp [heq], ?_⟩
          simp only [List.length_cons]
          rw [show i + (bs.length + 1) + 1 = i + 1 + bs.length + 1 from by omega]
          exact hsc

theorem preClose_succ_inv {d : Int} {u : List Char} (hd : 1 ≤ d)
    (h : PreClose (d + 1) u) : ∃ a v, Items a ∧ PreClose d v ∧ u = a ++ '}' :: v := by
  generalize he : d + 1 = e at h
  cases h with
  | one hu => omega
  | step hu hv =>
    rename_i d' a v
    have hd' : d' = d := by omega
    subst hd'
    exact ⟨a, v, hu, hv, rfl⟩

/-- Inversion of a successful scan from depth d outside strings: the input is
a region closing d levels, the matched closing brace, and an unscanned
remainder; the match position is the region's length. -/
theorem scanBrace_inv : ∀ (n : Nat) (s : List Char) (i : Nat) (d : Int) (j : Nat),
    s.length ≤ n → 1 ≤ d → scanBrace s i d false false = some j →
    ∃ u rest, s = u ++ '}' :: rest ∧ j = i + u.length ∧ PreClose d u := by
  intro n
  induction n with
  | zero =>
    intro s i d j hs _ h
    have hnil : s = [] := List.length_eq_zero.mp (by omega)
    subst hnil
    simp [scanBrace] at h
  | succ n ih =>
    intro s i d j hs hd h
    cases s with
    | nil => simp [scanBrace] at h
    | cons c t =>
      have hslen : t.length ≤ n := by simp only [List.length_cons] at hs; omega
      by_cases hq : c = '"'
      · subst hq
        rw [scanBrace_quote] at h
        simp only [Bool.not_false] at h
        obtain ⟨bs, rest2, hsb, heq, hsc⟩ :=
          scanBrace_strInv t.length t (i + 1) d j le_rfl h
        have hrest2len : rest2.length ≤ n := by
          have := congrArg List.length heq
          simp only [List.length_cons, List.length_append] at this
          omega
        obtain ⟨u', rest, hrest, hj, hpre⟩ := ih rest2 (i + 1 + bs.length + 1) d j
          hrest2len hd hsc
        refine ⟨('"' :: bs ++ ['"']) ++ u', rest, ?_, ?_, ?_⟩
        · rw [heq, hrest]
          simp [List.append_assoc]
        · rw [hj]
          simp only [List.length_append, List.length_cons, List.length_singleton,
            List.length_nil]
          omega
        · exact preClose_prepend (fun w hw => Items.str ⟨bs, hsb, rfl⟩ hw) hpre
      · by_cases ho : c = '{'
        · subst ho
          rw [scanBrace_open] at h
          obtain ⟨u', rest', hrest, hj, hpre⟩ := ih t (i + 1) (d + 1) j hslen (by omega) h
          obtain ⟨a, v, ha, hv, hueq⟩ := preClose_succ_inv hd hpre
          refine ⟨('{' :: a ++ ['}']) ++ v, rest', ?_, ?_, ?_⟩
          · rw [hrest, hueq]
            simp [List.append_assoc]
          · rw [hj, hueq]
            simp only [List.length_append, List.length_cons, List.length_singleton,
              List.length_nil]
            omega
          · exact preClose_prepend (fun w hw => Items.obj ha hw) hv
        · by_cases hcl : c = '}'
          · subst hcl
            rw [scanBrace_close] at h
            by_cases hd1 : d - 1 = 0
            · rw [if_pos hd1] at h
              injection h with hj
              refine ⟨[], t, by simp, by simp [hj], ?_⟩
              have hde : d = 1 := by omega
              subst hde
              exact PreClose.one Items.nil
            · rw [if_neg hd1] at h
              obtain ⟨u', rest, hrest, hj, hpre⟩ := ih t (i + 1) (d - 1) j hslen
                (by omega) h
              refine ⟨'}' :: u', rest, by simp [hrest], ?_, ?_⟩
              · rw [hj]
                simp only [List.length_cons]
                omega
              · have hstep : PreClose ((d - 1) + 1) ([] ++ '}' :: u') :=
                  PreClose.step Items.nil hpre
                have hdd : d - 1 + 1 = d := by omega
                rw [hdd] at hstep
                simpa using hstep
          · rw [scanBrace_other c t i d hq ho hcl] at h
            obtain ⟨u', rest, hrest, hj, hpre⟩ := ih t (i + 1) d j hslen hd h
            refine ⟨c :: u', rest, by simp [hrest], ?_, ?_⟩
            · rw [hj]
              simp only [List.length_cons]
              omega
            · have := preClose_prepend (x := [c])
                (fun w hw => Items.plain ho hcl hq hw) hpre
              simpa using this

/-- C4: findJsonObjectEnd finds exactly the matching closing brace of a
balanced JSON object.  For every buffer and start offset, the scanner returns
position e precisely when the buffer splits into a prefix holding no opening
brace at or after the offset, a balanced object (whose string literals may
contain braces and backslash-escaped quotes without affecting the depth
count), and a remainder, with e the position of the object's closing brace.
In particular it returns none (JavaScript -1) when no complete balanced
object starts at the first opening brace, or when there is no opening brace
at all. -/
theorem findJsonObjectEnd_correct (str : List Char) (startPos : Nat) (e : Nat) :
    findJsonObjectEnd str startPos = some e ↔
      ∃ pre obj rest, str = pre ++ obj ++ rest ∧ startPos ≤ pre.length ∧
        (∀ c ∈ pre.drop startPos, c ≠ '{') ∧ Balanced obj ∧
        e + 1 = pre.length + obj.length := by
  constructor
  · intro h
    unfold findJsonObjectEnd at h
    by_cases hg : startPos ≥ str.length
    · rw [if_pos hg] at h; exact absurd h (by simp)
    · rw [if_neg hg] at h
      cases hidx : indexOfFrom str '{' startPos with
      | none => rw [hidx] at h; exact absurd h (by simp)
      | some pos =>
        rw [hidx] at h
        have h' : scanBrace (str.drop (pos + 1)) (pos + 1) 1 false false = some e := h
        unfold indexOfFrom at hidx
        cases haux : indexOfAux '{' (str.drop startPos) 0 with
        | none => rw [haux] at hidx; simp at hidx
        | some q =>
          rw [haux] at hidx
          simp only [Option.map_some'] at hidx
          injection hidx with hpos
          obtain ⟨pre0, suf, hdrop_eq, hq, hfree⟩ := indexOfAux_inv '{' _ 0 q haux
          have hsp : startPos ≤ str.length := by omega
          have hstr : str = (str.take startPos ++ pre0) ++ '{' :: suf := by
            conv_lhs => rw [← List.take_append_drop startPos str]
            rw [hdrop_eq, List.append_assoc]
          have htklen : (str.take startPos).length = startPos := by
            rw [List.length_take]; omega
          have hprelen : (str.take startPos ++ pre0).length = pos := by
            rw [List.length_append, htklen]; omega
          have hdrop1 : str.drop (pos + 1) = suf := by
            calc str.drop (pos + 1)
                = ((str.take startPos ++ pre0) ++ '{' :: suf).drop
                    ((str.take startPos ++ pre0).length + 1) := by rw [← hstr, hprelen]
              _ = ('{' :: suf).drop 1 := List.drop_append 1
              _ = suf := rfl
          rw [hdrop1] at h'
          obtain ⟨u, rest, hsuf, hj, hpre⟩ :=
            scanBrace_inv suf.length suf (pos + 1) 1 e le_rfl le_rfl h'
          have hitems : Items u := by
            generalize hone : (1 : Int) = dd at hpre
            cases hpre with
            | one hu => exact hu
            | step hu hv =>
              have := preClose_pos hv
              omega
          refine ⟨str.take startPos ++ pre0, '{' :: u ++ ['}'], rest, ?_, ?_, ?_,
            ⟨u, hitems, rfl⟩, ?_⟩
          · conv_lhs => rw [hstr]
            rw [hsuf]
            simp [List.append_assoc]
          · rw [List.length_append, htklen]; omega
          · have hdl : (str.take startPos ++ pre0).drop startPos = pre0 := by
              have hdl0 := List.drop_left (str.take startPos) pre0
              rwa [htklen] at hdl0
            rw [hdl]
            exact hfree
          · rw [hj]
            simp only [List.length_append, List.length_cons, List.length_singleton,
              List.length_nil]
            omega
  · rintro ⟨pre, obj, rest, hstr, hsp, hfree, ⟨inner, hinner, hobj⟩, he⟩
    subst hobj
    subst hstr
    have he' : e + 1 = pre.length + (inner.length + 2) := by
      simp only [List.length_append, List.length_cons, List.length_singleton,
        List.length_nil] at he
      omega
    have hguard : ¬ startPos ≥ (pre ++ ('{' :: inner ++ ['}']) ++ rest).length := by
      simp only [List.length_append, List.length_cons, List.length_singleton,
        List.length_nil]
      omega
    unfold findJsonObjectEnd
    rw [if_neg hguard]
    have hdropeq : (pre ++ ('{' :: inner ++ ['}']) ++ rest).drop startPos
        = pre.drop startPos ++ ('{' :: (inner ++ '}' :: rest)) := by
      rw [List.append_assoc, List.drop_append_of_le_length hsp]
      congr 1
      simp [List.append_assoc]
    have hidx : indexOfFrom (pre ++ ('{' :: inner ++ ['}']) ++ rest) '{' startPos
        = some pre.length := by
      unfold indexOfFrom
      rw [hdropeq, indexOfAux_found '{' (pre.drop startPos) _ 0 hfree]
      simp only [Option.map_some']
      congr 1
      rw [List.length_drop]
      omega
    rw [hidx]
    show scanBrace ((pre ++ ('{' :: inner ++ ['}']) ++ rest).drop (pre.length + 1))
      (pre.length + 1) 1 false false = some e
    have hdrop2 : (pre ++ ('{' :: inner ++ ['}']) ++ rest).drop (pre.length + 1)
        = inner ++ '}' :: rest := by
      calc (pre ++ ('{' :: inner ++ ['}']) ++ rest).drop (pre.length + 1)
          = (pre ++ ('{' :: (inner ++ '}' :: rest))).drop (pre.length + 1) := by
            congr 1
            simp [List.append_assoc]
        _ = ('{' :: (inner ++ '}' :: rest)).drop 1 := List.drop_append 1
        _ = inner ++ '}' :: rest := rfl
    rw [hdrop2, items_scan_top hinner rest (pre.length + 1)]
    congr 1
    omega

/-! Injectivity of the decimal rendering of Nat, needed to tell generated
class names apart. -/

theorem toDigitsCore_acc (fuel : Nat) : ∀ (n : Nat) (ds : List Char),
    Nat.toDigitsCore 10 fuel n ds = Nat.toDigitsCore 10 fuel n [] ++ ds := by
  induction fuel with
  | zero => intro n ds; simp [Nat.toDigitsCore]
  | succ fuel ih =>
    intro n ds
    simp only [Nat.toDigitsCore]
    by_cases h : n / 10 = 0
    · simp [h]
    · simp only [h, if_false]
      rw [ih (n / 10) [Nat.digitChar (n % 10)], ih (n / 10) (Nat.digitChar (n % 10) :: ds)]
      simp

/-- Decimal value of a digit list. -/
def digitsVal (l : List Char) : Nat :=
  l.foldl (fun a c => a * 10 + (c.toNat - '0'.toNat)) 0

theorem digitsVal_append_digit (xs : List Char) (c : Char) :
    digitsVal (xs ++ [c]) = digitsVal xs * 10 + (c.toNat - '0'.toNat) := by
  unfold digitsVal
  rw [List.foldl_append]
  rfl

theorem digitChar_val {d : Nat} (h : d < 10) :
    (Nat.digitChar d).toNat - '0'.toNat = d := by
  interval_cases d <;> rfl

theorem toDigitsCore_val (fuel : Nat) : ∀ (n : Nat), n < 10 ^ fuel →
    digitsVal (Nat.toDigitsCore 10 fuel n []) = n := by
  induction fuel with
  | zero =>
    intro n hn
    have hn0 : n = 0 := by simpa using hn
    subst hn0
    rfl
  | succ fuel ih =>
    intro n hn
    simp only [Nat.toDigitsCore]
    by_cases h : n / 10 = 0
    · simp only [h, if_true]
      have hd : n < 10 := by omega
      show digitsVal ([] ++ [Nat.digitChar (n % 10)]) = n
      rw [digitsVal_append_digit]
      have hmod : n % 10 = n := Nat.mod_eq_of_lt hd
      rw [hmod, digitChar_val hd]
      simp [digitsVal]
    · simp only [h, if_false]
      rw [toDigitsCore_acc, digitsVal_append_digit]
      have hn' : n < 10 * 10 ^ fuel := by
        rw [pow_succ] at hn
        omega
      have hdiv : n / 10 < 10 ^ fuel := Nat.div_lt_of_lt_mul hn'
      rw [ih (n / 10) hdiv, digitChar_val (Nat.mod_lt n (by omega))]
      omega

theorem nat_repr_inj {m n : Nat} (h : Nat.repr m = Nat.repr n) : m = n := by
  unfold Nat.repr at h
  have hdata := congrArg String.data h
  have hlist : Nat.toDigits 10 m = Nat.toDigits 10 n := hdata
  unfold Nat.toDigits at hlist
  have hm : m < 10 ^ (m + 1) := by
    calc m < 2 ^ m := Nat.lt_two_pow m
      _ ≤ 10 ^ m := Nat.pow_le_pow_left (by omega) m
      _ ≤ 10 ^ (m + 1) := Nat.pow_le_pow_right (by omega) (by omega)
  have hn : n < 10 ^ (n + 1) := by
    calc n < 2 ^ n := Nat.lt_two_pow n
      _ ≤ 10 ^ n := Nat.pow_le_pow_left (by omega) n
      _ ≤ 10 ^ (n + 1) := Nat.pow_le_pow_right (by omega) (by omega)
  calc m = digitsVal (Nat.toDigitsCore 10 (m + 1) m []) := (toDigitsCore_val (m + 1) m hm).symm
    _ = digitsVal (Nat.toDigitsCore 10 (n + 1) n []) := by rw [hlist]
    _ = n := toDigitsCore_val (n + 1) n hn

theorem className_inj {a b : Nat}
    (h : "C" ++ Nat.repr a = "C" ++ Nat.repr b) : a = b := by
  have hdata := congrArg String.data h
  simp only [String.data_append] at hdata
  have hrepr : (Nat.repr a).data = (Nat.repr b).data :=
    List.append_cancel_left hdata
  exact nat_repr_inj (show Nat.repr a = Nat.repr b from congrArg String.mk hrepr)

/-! Lemmas about insertion-ordered association lists. -/

theorem lookupA_cons (e : String × String) (rest : List (String × String)) (k : String) :
    lookupA (e :: rest) k = if e.1 = k then some e.2 else lookupA rest k := by
  by_cases h : e.1 = k
  · rw [if_pos h]
    unfold lookupA
    rw [List.find?_cons_of_pos _ (by simp [h])]
    rfl
  · rw [if_neg h]
    unfold lookupA
    rw [List.find?_cons_of_neg _ (by simp [h])]

theorem lookupA_mem_values : ∀ (m : List (String × String)) {k v : String},
    lookupA m k = some v → v ∈ m.map Prod.snd := by
  intro m
  induction m with
  | nil => intro k v h; simp [lookupA] at h
  | cons e rest ih =>
    intro k v h
    rw [lookupA_cons] at h
    by_cases hek : e.1 = k
    · rw [if_pos hek] at h
      injection h with h
      simp [← h]
    · rw [if_neg hek] at h
      simp only [List.map_cons, List.mem_cons]
      exact Or.inr (ih h)

theorem lookupA_append_left : ∀ (m m2 : List (String × String)) {k v : String},
    lookupA m k = some v → lookupA (m ++ m2) k = some v := by
  intro m m2
  induction m with
  | nil => intro k v h; simp [lookupA] at h
  | cons e rest ih =>
    intro k v h
    rw [lookupA_cons] at h
    rw [List.cons_append, lookupA_cons]
    by_cases hek : e.1 = k
    · rwa [if_pos hek] at h ⊢
    · rw [if_neg hek] at h ⊢
      exact ih h

theorem lookupA_append_new : ∀ (m : List (String × String)) {k : String} (v : String),
    lookupA m k = none → lookupA (m ++ [(k, v)]) k = some v := by
  intro m
  induction m with
  | nil =>
    intro k v _
    rw [List.nil_append, lookupA_cons, if_pos rfl]
  | cons e rest ih =>
    intro k v h
    rw [lookupA_cons] at h
    rw [List.cons_append, lookupA_cons]
    by_cases hek : e.1 = k
    · rw [if_pos hek] at h; exact absurd h (by simp)
    · rw [if_neg hek] at h ⊢
      exact ih v h

theorem lookupA_nodup_inj : ∀ (m : List (String × String)) {k1 k2 v1 v2 : String},
    (m.map Prod.snd).Nodup → lookupA m k1 = some v1 → lookupA m k2 = some v2 →
    k1 ≠ k2 → v1 ≠ v2 := by
  intro m
  induction m with
  | nil => intro k1 k2 v1 v2 _ h1 _ _; simp [lookupA] at h1
  | cons e rest ih =>
    intro k1 k2 v1 v2 hnd h1 h2 hk
    rw [lookupA_cons] at h1 h2
    simp only [List.map_cons, List.nodup_cons] at hnd
    by_cases he1 : e.1 = k1
    · rw [if_pos he1] at h1
      injection h1 with h1
      have he2 : ¬ e.1 = k2 := by rw [he1]; exact hk
      rw [if_neg he2] at h2
      intro hv
      apply hnd.1
      rw [h1, hv]
      exact lookupA_mem_values rest h2
    · rw [if_neg he1] at h1
      by_cases he2 : e.1 = k2
      · rw [if_pos he2] at h2
        injection h2 with h2
        intro hv
        apply hnd.1
        rw [h2, ← hv]
        exact lookupA_mem_values rest h1
      · rw [if_neg he2] at h2
        exact ih hnd.2 h1 h2 hk

/-! Lemmas about the converter's node pass. -/

theorem nodeStep_not_shape (ic : Bool) (st : FlowState) (el : Element)
    (hel : ¬ isShape el) : nodeStep ic st el = st := by
  unfold nodeStep
  rw [if_neg hel]

theorem nodeStep_shape_trace (ic : Bool) (st : FlowState) (el : Element)
    (hel : isShape el) :
    (nodeStep ic st el).trace.map (fun e => e.alphaId) =
      st.trace.map (fun e => e.alphaId) ++ [getAlphaIdAt st.idCounter]
    ∧ (nodeStep ic st el).idCounter = st.idCounter + 1 := by
  unfold nodeStep
  rw [if_pos hel]
  cases ic <;> simp

theorem collectTexts_only_textMap (cleanT : String → String) :
    ∀ (els : List Element) (st : FlowState),
    (collectTexts cleanT els st).trace = st.trace
    ∧ (collectTexts cleanT els st).idCounter = st.idCounter
    ∧ (collectTexts cleanT els st).classDefs = st.classDefs
    ∧ (collectTexts cleanT els st).colorCounter = st.colorCounter := by
  intro els
  induction els with
  | nil => intro st; exact ⟨rfl, rfl, rfl, rfl⟩
  | cons e es ih =>
    intro st
    unfold collectTexts at ih ⊢
    simp only [List.foldl_cons]
    by_cases he : e.type = "text"
    · rw [if_pos he]
      exact ih _
    · rw [if_neg he]
      exact ih _

theorem nodeFold_ids (ic : Bool) : ∀ (els : List Element) (st : FlowState),
    (els.foldl (nodeStep ic) st).trace.map (fun e => e.alphaId) =
      st.trace.map (fun e => e.alphaId) ++
        (List.range' st.idCounter (els.countP (fun el => decide (isShape el)))).map getAlphaIdAt
    ∧ (els.foldl (nodeStep ic) st).idCounter =
      st.idCounter + els.countP (fun el => decide (isShape el)) := by
  intro els
  induction els with
  | nil => intro st; simp
  | cons el els ih =>
    intro st
    simp only [List.foldl_cons, List.countP_cons]
    by_cases hel : isShape el
    · obtain ⟨ht, hc⟩ := nodeStep_shape_trace ic st el hel
      obtain ⟨iht, ihc⟩ := ih (nodeStep ic st el)
      rw [decide_eq_true hel]
      simp only [if_true]
      constructor
      · rw [iht, ht, hc]
        rw [show els.countP (fun el => decide (isShape el)) + 1 =
              (els.countP (fun el => decide (isShape el))) + 1 from rfl]
        rw [List.range'_succ]
        simp [List.append_assoc]
      · rw [ihc, hc]
        omega
    · rw [nodeStep_not_shape ic st el hel]
      rw [decide_eq_false hel]
      simpa using ih st

/-- C8: canonical node ids are assigned from the fixed deterministic sequence
realized by getAlphaId (the letters A..Z, then the numbered overflow ids), in
the order recognized shapes are encountered: the trace of a conversion call
maps its k-th recognized shape (0-based) to the k-th id of the sequence, for
any input and any label-cleaning function, hence identically on repeated
runs. -/
theorem canonical_ids_sequential (cleanT : String → String) (includeColors : Bool)
    (els : List Element) :
    (nodeTraceOf cleanT includeColors els).map (fun e => e.alphaId) =
      (List.range (els.countP (fun el => decide (isShape el)))).map getAlphaIdAt := by
  unfold nodeTraceOf
  obtain ⟨ht, hi, _, _⟩ := collectTexts_only_textMap cleanT els ({} : FlowState)
  have h := (nodeFold_ids includeColors els (collectTexts cleanT els {})).1
  rw [h, ht, hi]
  show [] ++ _ = _
  rw [List.nil_append, List.range_eq_range']

/-! Invariant of the style-class assignment. -/

theorem getColorClass_spec (cd : List (String × String)) (cnt : Nat) (bg stroke : String)
    (hinv : cdInv cd cnt) :
    cdInv (getColorClass cd cnt bg stroke).2.1 (getColorClass cd cnt bg stroke).2.2
    ∧ lookupA (getColorClass cd cnt bg stroke).2.1 (bg ++ "-" ++ stroke) =
        some (getColorClass cd cnt bg stroke).1
    ∧ (∀ k v, lookupA cd k = some v →
        lookupA (getColorClass cd cnt bg stroke).2.1 k = some v) := by
  cases hl : lookupA cd (bg ++ "-" ++ stroke) with
  | some n =>
    simp only [getColorClass, hl]
    exact ⟨hinv, trivial, fun k v h => h⟩
  | none =>
    simp only [getColorClass, hl]
    refine ⟨?_, ?_, ?_⟩
    · unfold cdInv at hinv ⊢
      simp only [List.map_append, hinv, List.map_cons, List.map_nil]
      rw [List.range_succ, List.map_append]
      rfl
    · exact lookupA_append_new cd _ hl
    · intro k v h
      exact lookupA_append_left cd _ h

theorem nodeStep_inv (st : FlowState) (el : Element) (h : flowInv st) :
    flowInv (nodeStep true st el) := by
  by_cases hel : isShape el
  · obtain ⟨hcd, htr⟩ := h
    obtain ⟨hinv', hself, hpres⟩ := getColorClass_spec st.classDefs st.colorCounter
      (if el.backgroundColor = "" then "white" else el.backgroundColor)
      (if el.strokeColor = "" then "#1e1e1e" else el.strokeColor) hcd
    unfold nodeStep
    rw [if_pos hel]
    simp only [if_true]
    constructor
    · exact hinv'
    · intro e he
      simp only [List.mem_append, List.mem_singleton] at he
      cases he with
      | inl hmem =>
        obtain ⟨nm, hc, hl⟩ := htr e hmem
        exact ⟨nm, hc, hpres _ _ hl⟩
      | inr heq =>
        subst heq
        refine ⟨_, rfl, ?_⟩
        exact hself
  · rw [nodeStep_not_shape true st el hel]
    exact h

theorem nodeFold_inv : ∀ (els : List Element) (st : FlowState),
    flowInv st → flowInv (els.foldl (nodeStep true) st) := by
  intro els
  induction els with
  | nil => intro st h; exact h
  | cons el els ih =>
    intro st h
    simp only [List.foldl_cons]
    exact ih _ (nodeStep_inv st el h)

/-- C6 counterexample: two recognized shapes whose (fill, stroke) pairs
differ, ("a-b", "c") against ("a", "b-c"), receive the same StyleClass name
C1, because getColorClass joins the two colors with a dash into the ambiguous
key "a-b-c". -/
theorem color_class_key_collision :
    (nodeTraceOf id true [elRectA, elRectB]).map (fun e => (e.fill, e.stroke, e.className)) =
      [("a-b", "c", some "C1"), ("a", "b-c", some "C1")]
    ∧ (("a-b", "c") : String × String) ≠ ("a", "b-c") := by
  constructor
  · decide
  · decide

/-- C6 amended: within one conversion call with colors on, two recognized
shapes with identical (fill, stroke) pairs always receive the same StyleClass
name, and two shapes receive different names whenever their joined
fill-dash-stroke keys differ.  Two shapes differing in fill or stroke can
share a name exactly when a color containing a dash makes the joined keys
collide (see the counterexample). -/
theorem style_class_names_amended (cleanT : String → String) (els : List Element) :
    ∀ e1 ∈ nodeTraceOf cleanT true els, ∀ e2 ∈ nodeTraceOf cleanT true els,
      (e1.fill = e2.fill ∧ e1.stroke = e2.stroke → e1.className = e2.className) ∧
      (keyOf e1 ≠ keyOf e2 → e1.className ≠ e2.className) := by
  intro e1 h1 e2 h2
  have hinit : flowInv (collectTexts cleanT els {}) := by
    obtain ⟨ht, _, hcd, hcc⟩ := collectTexts_only_textMap cleanT els ({} : FlowState)
    constructor
    · rw [hcd, hcc]
      rfl
    · rw [ht]
      intro e he
      simp at he
  have hinv := nodeFold_inv els (collectTexts cleanT els {}) hinit
  obtain ⟨hcd, htr⟩ := hinv
  obtain ⟨n1, hc1, hl1⟩ := htr e1 h1
  obtain ⟨n2, hc2, hl2⟩ := htr e2 h2
  constructor
  · rintro ⟨hf, hs⟩
    have hk : keyOf e1 = keyOf e2 := by
      unfold keyOf
      rw [hf, hs]
    rw [hc1, hc2]
    rw [hk] at hl1
    rw [hl1] at hl2
    injection hl2 with h
    rw [h]
  · intro hk hcon
    have hnodup : (((els.foldl (nodeStep true) (collectTexts cleanT els {})).classDefs).map
        Prod.snd).Nodup := by
      rw [hcd]
      refine List.Nodup.map ?_ (List.nodup_range _)
      intro a b hab
      have := className_inj hab
      omega
    have hne := lookupA_nodup_inj _ hnodup hl1 hl2 hk
    rw [hc1, hc2] at hcon
    injection hcon with hcon
    exact hne hcon

theorem style_class_names_amended_witness :
    ((⟨"r3", "A", "red", "black", some "C1"⟩ : NodeTrace).className =
      (⟨"r3", "A", "red", "black", some "C1"⟩ : NodeTrace).className)
    ∧ ((⟨"r3", "A", "red", "black", some "C1"⟩ : NodeTrace).className ≠
      (⟨"r4", "B", "blue", "black", some "C2"⟩ : NodeTrace).className) := by
  constructor
  · exact (style_class_names_amended id [elRectC, elRectD] _ (by decide) _ (by decide)).1
      ⟨rfl, rfl⟩
  · exact (style_class_names_amended id [elRectC, elRectD] _ (by decide) _ (by decide)).2
      (by decide)

end WeMermaid

